import Mathlib

/-!
Verification development for the fastnumbers numeric-text core.

The repository's `src/include/number_handling.h` provides the NaN/infinity
predicates and the error-raising macros directly; the Grammar Scanner, Value
Extractor and Type Dispatcher are declared there but implemented outside the
available sources, so those components are modelled from the specification
(section 4 of the design document) and marked as such in their doc comments.
Machine doubles are modelled as exact rationals together with an explicit
binary-representability predicate and a correctly-rounded conversion.
-/

set_option maxHeartbeats 1000000

/-- A Python float value: a finite value (modelled as the exact rational the
bit pattern denotes), a NaN, or a signed infinity. -/
inductive FloatVal where
  | finite (q : ℚ)
  | nan
  | inf (neg : Bool)
  deriving DecidableEq

/-- Modelled from the spec: the tagged-variant `Input` of section 9 resolved
at the Type Dispatcher boundary — an input is an arbitrary-precision integer,
a float, or text. -/
inductive PyValue where
  | int (n : ℤ)
  | float (f : FloatVal)
  | str (s : List Char)
  deriving DecidableEq

/-- Modelled from the spec: the `ConversionOptions` error policy
(`Raise | ReturnDefault(value) | ReturnInput | Coerce`). -/
inductive ErrorPolicy where
  | Raise
  | ReturnDefault (v : PyValue)
  | ReturnInput
  | Coerce
  deriving DecidableEq

/-- Modelled from the spec: the immutable `ConversionOptions` record.  The
grammar flags covered by the claims are the whitespace toggles and
`allow_underscores`; the model fixes the default decimal grammar
(`base = 10`, ASCII digits), which is the configuration every claim
exercises. -/
structure Options where
  allow_leading_ws : Bool
  allow_trailing_ws : Bool
  allow_underscores : Bool
  policy : ErrorPolicy
  deriving DecidableEq

/-- The default options: whitespace tolerated, underscores allowed, errors
raised — matching the host's own literal parser. -/
def defaultOptions : Options :=
  { allow_leading_ws := true
    allow_trailing_ws := true
    allow_underscores := true
    policy := ErrorPolicy.Raise }

/-- Modelled from the spec (options.h is not among the sources): an options
record instructs raising exactly when its error policy is `Raise`. -/
def Options_Should_Raise (o : Options) : Bool :=
  match o.policy with
  | ErrorPolicy.Raise => true
  | _ => false

/-- Modelled from the spec: the Scanner's tagged `Classification` result.
The digit runs are recorded exactly as they appear in the input (underscores
included); the Extractor performs the underscore stripping. -/
inductive Classification where
  | Invalid
  | IntegerSpan (neg : Bool) (digits : List Char)
  | FloatSpan (neg : Bool) (ipart fpart : List Char) (eneg : Bool) (epart : List Char)
  | SpecialSpan (isNan : Bool) (neg : Bool)
  deriving DecidableEq

/-- True when the list starts with an ASCII decimal digit. -/
def headDigit : List Char → Bool
  | c :: _ => c.isDigit
  | [] => false

/-- Modelled from the spec: the digit-run continuation after an initial
digit.  A digit extends the run; an underscore extends it only when
`allow_underscores` is set and the next character is a digit (so every
consumed underscore sits strictly between two digits); anything else ends the
run. -/
def drun (u : Bool) : List Char → List Char × List Char
  | [] => ([], [])
  | c :: rest =>
    if c.isDigit then
      let p := drun u rest
      (c :: p.1, p.2)
    else if (c == '_') && u && headDigit rest then
      let p := drun u rest
      (c :: p.1, p.2)
    else ([], c :: rest)

/-- Modelled from the spec: scan one digit run.  Succeeds only when the first
character is a digit, returning the consumed run (underscores included) and
the unconsumed remainder. -/
def digitRun (u : Bool) (s : List Char) : Option (List Char × List Char) :=
  match s with
  | c :: rest =>
    if c.isDigit then
      let p := drun u rest
      some (c :: p.1, p.2)
    else none
  | [] => none

/-- Modelled from the spec: the optional leading sign; `true` means
negative. -/
def parseSign : List Char → Bool × List Char
  | '+' :: r => (false, r)
  | '-' :: r => (true, r)
  | s => (false, s)

/-- Case-insensitive match of one character against a lowercase ASCII
letter. -/
def eqCI (c : Char) (lower : Char) : Bool :=
  c == lower || c.toNat == lower.toNat - 32

/-- Case-insensitive match of a span against a lowercase ASCII pattern. -/
def matchCI : List Char → List Char → Bool
  | [], [] => true
  | c :: cs, l :: ls => eqCI c l && matchCI cs ls
  | _, _ => false

/-- Modelled from the spec: the exponent step.  An empty remainder closes the
float span; otherwise the remainder must be `e`/`E`, an optional sign and a
mandatory digit run consuming everything left. -/
def parseExp (u : Bool) (neg : Bool) (ip fp : List Char) : List Char → Classification
  | [] => Classification.FloatSpan neg ip fp false []
  | c :: r =>
    if c == 'e' || c == 'E' then
      let p := parseSign r
      match digitRun u p.2 with
      | some (es, []) => Classification.FloatSpan neg ip fp p.1 es
      | _ => Classification.Invalid
    else Classification.Invalid

/-- Modelled from the spec: the fractional continuation after the dot — an
optional fractional digit run, then the exponent step. -/
def parseFrac (u : Bool) (neg : Bool) (ds r2 : List Char) : Classification :=
  match digitRun u r2 with
  | some (fs, r3) => parseExp u neg ds fs r3
  | none => parseExp u neg ds [] r2

/-- Modelled from the spec: continue after the integer digit run — nothing
left is an integer span, a dot moves to the fractional grammar, anything
else must be an exponent. -/
def parseAfterInt (u : Bool) (neg : Bool) (ds : List Char) : List Char → Classification
  | [] => Classification.IntegerSpan neg ds
  | x :: r2 => if x = '.' then parseFrac u neg ds r2 else parseExp u neg ds [] (x :: r2)

/-- Modelled from the spec: a literal with no integer digit run must start
with a dot followed by a mandatory fractional digit run. -/
def parseDotStart (u : Bool) (neg : Bool) : List Char → Classification
  | x :: r2 =>
    if x = '.' then
      match digitRun u r2 with
      | some (fs, r3) => parseExp u neg [] fs r3
      | none => Classification.Invalid
    else Classification.Invalid
  | [] => Classification.Invalid

def parseNum (u : Bool) (neg : Bool) (s : List Char) : Classification :=
  match digitRun u s with
  | some (ds, rest) => parseAfterInt u neg ds rest
  | none => parseDotStart u neg s

/-- Modelled from the spec: the scanner core on the whitespace-stripped span:
optional sign, then the case-insensitive `inf`/`infinity`/`nan` literals,
otherwise the numeric grammar.  It never throws — every outcome is a tagged
`Classification`. -/
def scanCore (u : Bool) (s : List Char) : Classification :=
  let p := parseSign s
  if matchCI p.2 ['i', 'n', 'f'] || matchCI p.2 ['i', 'n', 'f', 'i', 'n', 'i', 't', 'y'] then
    Classification.SpecialSpan false p.1
  else if matchCI p.2 ['n', 'a', 'n'] then
    Classification.SpecialSpan true p.1
  else
    parseNum u p.1 p.2

/-- Drop trailing whitespace. -/
def dropTrail (s : List Char) : List Char :=
  (s.reverse.dropWhile Char.isWhitespace).reverse

/-- Modelled from the spec: whitespace stripping controlled by the
`allow_leading_ws` / `allow_trailing_ws` grammar flags. -/
def stripWs (o : Options) (s : List Char) : List Char :=
  let s1 := if o.allow_leading_ws then s.dropWhile Char.isWhitespace else s
  if o.allow_trailing_ws then dropTrail s1 else s1

/-- Modelled from the spec: `scan(text, options) -> Classification`, the
single-pass Grammar Scanner. -/
def scan (s : List Char) (o : Options) : Classification :=
  scanCore o.allow_underscores (stripWs o s)

/-- The numeric value of a recorded digit run: underscores are stripped and
the remaining ASCII digits accumulated in base 10 (this is the
underscore-stripped sequence the spec says the Extractor is fed). -/
def digitsVal (ds : List Char) : ℕ :=
  (ds.filter (fun c => !(c == '_'))).foldl (fun a c => 10 * a + (c.toNat - 48)) 0

/-- The exact integer value of an integer span. -/
def intSpanVal (neg : Bool) (ds : List Char) : ℤ :=
  (if neg then -1 else 1) * (digitsVal ds : ℤ)

/-- Number of fractional digits once underscores are stripped. -/
def fracLen (fp : List Char) : ℕ :=
  (fp.filter (fun c => !(c == '_'))).length

/-- The signed exponent value of a float span. -/
def expVal (eneg : Bool) (ep : List Char) : ℤ :=
  (if eneg then -1 else 1) * (digitsVal ep : ℤ)

/-- The exact rational value denoted by a float span:
`sign * (ipart.fpart) * 10^exponent`. -/
def floatSpanVal (neg : Bool) (ip fp : List Char) (eneg : Bool) (ep : List Char) : ℚ :=
  (if neg then -1 else 1) *
    ((digitsVal ip : ℚ) * (10 : ℚ) ^ (fracLen fp) + (digitsVal fp : ℚ)) *
    (10 : ℚ) ^ (expVal eneg ep - (fracLen fp : ℤ))

/-- Fuel-driven base-2 logarithm (floor); fuel `n` suffices for input `n`,
and the structural recursion evaluates inside the kernel. -/
def lg2F : ℕ → ℕ → ℕ
  | 0, _ => 0
  | f + 1, n => if n ≤ 1 then 0 else lg2F f (n / 2) + 1

/-- Floor base-2 logarithm. -/
def lg2 (n : ℕ) : ℕ := lg2F n n

/-- Whether `2^52 * d ≤ n * 2^s` for an integer scaling exponent `s`. -/
def geTest (n d : ℕ) (s : ℤ) : Bool :=
  if 0 ≤ s then decide (2 ^ 52 * d ≤ n * 2 ^ s.toNat)
  else decide (2 ^ 52 * d * 2 ^ (-s).toNat ≤ n)

/-- The scaling exponent `s` with `2^52 ≤ (n/d) * 2^s < 2^53`. -/
def scaleExp (n d : ℕ) : ℤ :=
  let s0 : ℤ := 52 + (lg2 d : ℤ) - (lg2 n : ℤ)
  if geTest n d s0 then s0 else s0 + 1

/-- Round `a / b` to the nearest natural number, ties to even. -/
def rhe (a b : ℕ) : ℕ :=
  let q := a / b
  let r := a % b
  if 2 * r < b then q
  else if b < 2 * r then q + 1
  else if q % 2 = 0 then q else q + 1

/-- Clear the integer scaling exponent into a numerator/denominator pair:
`(n/d) * 2^s` as a natural fraction. -/
def ratScale (n d : ℕ) (s : ℤ) : ℕ × ℕ :=
  if 0 ≤ s then (n * 2 ^ s.toNat, d) else (n, d * 2 ^ (-s).toNat)

/-- Correct rounding of a positive rational to the binary double format:
scale into `[2^52, 2^53)`, round the mantissa to nearest (ties to even),
and undo the scaling. -/
def roundPos (q : ℚ) : ℚ :=
  let n := q.num.toNat
  let d := q.den
  let s := scaleExp n d
  let p := ratScale n d s
  ((rhe p.1 p.2 : ℕ) : ℚ) * (2 : ℚ) ^ (-s)

/-- Modelled from the spec: the correctly-rounded decimal-to-binary routine
the Extractor delegates to — "parse nearest representable double".  Doubles
are modelled with a full 53-bit significand and unbounded exponent. -/
def roundDouble (q : ℚ) : ℚ :=
  if q = 0 then 0 else if 0 < q then roundPos q else -roundPos (-q)

/-- A rational exactly representable in the modelled double format: a 53-bit
integer significand times a power of two. -/
def repDouble (r : ℚ) : Prop :=
  ∃ (j f : ℤ), j.natAbs ≤ 2 ^ 53 ∧ r = (j : ℚ) * (2 : ℚ) ^ f

/-- Modelled from the spec: the Extractor's tagged `NumericResult`. -/
inductive NumericResult where
  | SmallInt (n : ℤ)
  | BigInt (n : ℤ)
  | FloatRes (f : FloatVal)
  deriving DecidableEq

/-- Modelled from the spec: pack an exact integer, keeping the fixed-width
(`i64`-range) representation when it fits and promoting to the
arbitrary-precision variant otherwise.  There is no overflow outcome. -/
def intToResult (v : ℤ) : NumericResult :=
  if -(2 ^ 63) ≤ v ∧ v < 2 ^ 63 then NumericResult.SmallInt v else NumericResult.BigInt v

/-- Modelled from the spec: `extract(classification) -> NumericResult`,
defined on non-`Invalid` classifications.  Integer spans give the exact
integer (promoted past the fixed width), float spans the correctly-rounded
double of the literal's value, special spans the canonical non-finite
doubles. -/
def extract : Classification → Option NumericResult
  | Classification.Invalid => none
  | Classification.IntegerSpan neg ds => some (intToResult (intSpanVal neg ds))
  | Classification.FloatSpan neg ip fp eneg ep =>
      some (NumericResult.FloatRes (FloatVal.finite (roundDouble (floatSpanVal neg ip fp eneg ep))))
  | Classification.SpecialSpan isNan sneg =>
      some (NumericResult.FloatRes (if isNan then FloatVal.nan else FloatVal.inf sneg))

/-- Truncation toward zero of a rational. -/
def truncQ (q : ℚ) : ℤ :=
  if 0 ≤ q then ⌊q⌋ else ⌈q⌉

/-- The error taxonomy of section 7. -/
inductive ErrorKind where
  | InvalidLiteral
  | UnsupportedType
  | IllegalBase
  | Overflow
  | NonFiniteToInt
  deriving DecidableEq

/-- The target kinds of the Type Dispatcher. -/
inductive TargetKind where
  | Int
  | Float
  | Real
  | ForceInt
  deriving DecidableEq

/-- Modelled from the spec (declared in number_handling.h, implemented
elsewhere): convert a float value to an integer result, truncating a finite
value toward zero and tagging NaN or an infinity as `NonFiniteToInt`. -/
def PyFloat_to_PyInt (f : FloatVal) : Except ErrorKind NumericResult :=
  match f with
  | FloatVal.finite q => Except.ok (intToResult (truncQ q))
  | FloatVal.nan => Except.error ErrorKind.NonFiniteToInt
  | FloatVal.inf _ => Except.error ErrorKind.NonFiniteToInt

/-- Modelled from the spec (declared in number_handling.h as
`PyFloat_is_Intlike`): a float value is int-like when it is finite with
exactly zero fractional part. -/
def PyFloat_is_Intlike (f : FloatVal) : Bool :=
  match f with
  | FloatVal.finite q => q.den == 1
  | _ => false

/-- Modelled from the spec: the Type Dispatcher.  Already-numeric inputs
short-circuit; text goes through Scanner and Extractor; the result is a
tagged `Except` — this layer never raises. -/
def dispatch (v : PyValue) (t : TargetKind) (o : Options) : Except ErrorKind NumericResult :=
  match v with
  | PyValue.int n =>
    match t with
    | TargetKind.Float => Except.ok (NumericResult.FloatRes (FloatVal.finite (roundDouble (n : ℚ))))
    | _ => Except.ok (intToResult n)
  | PyValue.float f =>
    match t with
    | TargetKind.Float => Except.ok (NumericResult.FloatRes f)
    | TargetKind.Real => Except.ok (NumericResult.FloatRes f)
    | TargetKind.Int => PyFloat_to_PyInt f
    | TargetKind.ForceInt => PyFloat_to_PyInt f
  | PyValue.str s =>
    match scan s o with
    | Classification.Invalid => Except.error ErrorKind.InvalidLiteral
    | Classification.IntegerSpan neg ds =>
      match t with
      | TargetKind.Float =>
          Except.ok (NumericResult.FloatRes (FloatVal.finite (roundDouble (intSpanVal neg ds : ℚ))))
      | _ => Except.ok (intToResult (intSpanVal neg ds))
    | Classification.FloatSpan neg ip fp eneg ep =>
      let q := roundDouble (floatSpanVal neg ip fp eneg ep)
      match t with
      | TargetKind.Int => Except.error ErrorKind.InvalidLiteral
      | TargetKind.Float => Except.ok (NumericResult.FloatRes (FloatVal.finite q))
      | TargetKind.Real =>
          if q.den = 1 then Except.ok (intToResult q.num)
          else Except.ok (NumericResult.FloatRes (FloatVal.finite q))
      | TargetKind.ForceInt => Except.ok (intToResult (truncQ q))
    | Classification.SpecialSpan isNan sneg =>
      match t with
      | TargetKind.Int => Except.error ErrorKind.InvalidLiteral
      | TargetKind.Float =>
          Except.ok (NumericResult.FloatRes (if isNan then FloatVal.nan else FloatVal.inf sneg))
      | TargetKind.Real =>
          Except.ok (NumericResult.FloatRes (if isNan then FloatVal.nan else FloatVal.inf sneg))
      | TargetKind.ForceInt => Except.error ErrorKind.NonFiniteToInt

/-- What a public operation hands back: a value (success or absorbed
fallback), or a surfaced error. -/
inductive Outcome where
  | ok (v : PyValue)
  | err (e : ErrorKind)
  deriving DecidableEq

/-- Repack an extraction result as a host value. -/
def resultToValue : NumericResult → PyValue
  | NumericResult.SmallInt n => PyValue.int n
  | NumericResult.BigInt n => PyValue.int n
  | NumericResult.FloatRes f => PyValue.float f

/-- Modelled from the spec: how a tagged failure is absorbed or surfaced by
the Public Operations layer, per the error-policy table of section 4.4. -/
def absorb (o : Options) (v : PyValue) (e : ErrorKind) : Outcome :=
  match o.policy with
  | ErrorPolicy.Raise => Outcome.err e
  | ErrorPolicy.ReturnDefault d => Outcome.ok d
  | ErrorPolicy.ReturnInput => Outcome.ok v
  | ErrorPolicy.Coerce => Outcome.ok v

/-- Modelled from the spec: the public `convert` operation — dispatch, then
apply the error policy to any tagged failure. -/
def convert (v : PyValue) (t : TargetKind) (o : Options) : Outcome :=
  match dispatch v t o with
  | Except.ok r => Outcome.ok (resultToValue r)
  | Except.error e => absorb o v e

/-- Modelled from the spec: the `is_int_like` predicate — integer spans are
int-like outright; float spans require extraction and a zero-fractional-part
check on the extracted double; everything else is not int-like. -/
def is_int_like (s : List Char) (o : Options) : Bool :=
  match scan s o with
  | Classification.IntegerSpan _ _ => true
  | Classification.FloatSpan neg ip fp eneg ep =>
      PyFloat_is_Intlike (FloatVal.finite (roundDouble (floatSpanVal neg ip fp eneg ep)))
  | Classification.SpecialSpan _ _ => false
  | Classification.Invalid => false

/-- The host's float type check (`PyFloat_Check`): true exactly on float
objects. -/
def PyFloat_Check (v : PyValue) : Bool :=
  match v with
  | PyValue.float _ => true
  | _ => false

/-- The host's `PyFloat_AS_DOUBLE` accessor (meaningful only after
`PyFloat_Check`). -/
def PyFloat_AS_DOUBLE (v : PyValue) : FloatVal :=
  match v with
  | PyValue.float f => f
  | _ => FloatVal.finite 0

/-- The host's `Py_IS_NAN` on a double. -/
def Py_IS_NAN (f : FloatVal) : Bool :=
  match f with
  | FloatVal.nan => true
  | _ => false

/-- The host's `Py_IS_INFINITY` on a double. -/
def Py_IS_INFINITY (f : FloatVal) : Bool :=
  match f with
  | FloatVal.inf _ => true
  | _ => false

/-- From number_handling.h line 19: `PyNumber_IsNAN(pynum)` is
`PyFloat_Check(pynum) && Py_IS_NAN(PyFloat_AS_DOUBLE(pynum))`. -/
def PyNumber_IsNAN (v : PyValue) : Bool :=
  PyFloat_Check v && Py_IS_NAN (PyFloat_AS_DOUBLE v)

/-- From number_handling.h line 20: `PyNumber_IsINF(pynum)` is
`PyFloat_Check(pynum) && Py_IS_INFINITY(PyFloat_AS_DOUBLE(pynum))`. -/
def PyNumber_IsINF (v : PyValue) : Bool :=
  PyFloat_Check v && Py_IS_INFINITY (PyFloat_AS_DOUBLE v)

/-- The exception types the header's error macros set. -/
inductive ExcType where
  | ValueError
  | TypeError
  deriving DecidableEq

/-- From number_handling.h line 38: the host's own invalid-int message
format. -/
def FN_INT_MSG : String := "invalid literal for int() with base 10: %.200R"

/-- From number_handling.h line 36: the host's float message format on
Python 3 (and every Python 2 other than 2.6). -/
def FN_FLOAT_MSG : String := "could not convert string to float: %.200R"

/-- A C preprocessing token, covering exactly the token kinds the header's
error macros expand to: identifiers, string literals, parentheses, the
comma, and the `->` member operator. -/
inductive CTok where
  | ident (s : String)
  | strLit (s : String)
  | lparen
  | rparen
  | comma
  | arrow
  deriving DecidableEq

/-- From number_handling.h line 56, token for token after expanding
`FN_INT_MSG` (line 38): the statement the Python-3 branch of
`SET_ERR_INVALID_INT(o)` guards with `Options_Should_Raise(o)`.  The
source has no comma between the format string and `(o)->input`. -/
def set_err_invalid_int_call : List CTok :=
  [CTok.ident ("PyErr_Format"), CTok.lparen,
   CTok.ident ("PyExc_ValueError"), CTok.comma,
   CTok.strLit FN_INT_MSG, CTok.lparen, CTok.ident ("o"), CTok.rparen,
   CTok.arrow, CTok.ident ("input"), CTok.rparen]

/-- From number_handling.h line 59, token for token after expanding
`FN_FLOAT_MSG` (line 36): the statement the Python-3 branch of
`SET_ERR_INVALID_FLOAT(o)` guards with `Options_Should_Raise(o)`; here
the comma before `(o)->input` is present. -/
def set_err_invalid_float_call : List CTok :=
  [CTok.ident ("PyErr_Format"), CTok.lparen,
   CTok.ident ("PyExc_ValueError"), CTok.comma,
   CTok.strLit FN_FLOAT_MSG, CTok.comma, CTok.lparen, CTok.ident ("o"),
   CTok.rparen, CTok.arrow, CTok.ident ("input"), CTok.rparen]

/-- From number_handling.h line 43, token for token after expanding
`FN_INT_MSG`: the message-building call of the Python-2 branch of
`SET_ERR_INVALID_INT(o)`, which does separate the format string from
`(o)->input` with a comma. -/
def set_err_invalid_int_py2_format_call : List CTok :=
  [CTok.ident ("PyUnicode_FromFormat"), CTok.lparen,
   CTok.strLit FN_INT_MSG, CTok.comma, CTok.lparen, CTok.ident ("o"),
   CTok.rparen, CTok.arrow, CTok.ident ("input"), CTok.rparen]

/-- Modelled from the spec: the call the error-reporting sentence of the
spec describes — `PyErr_Format` applied to the exception type, the host's
message format, and the input, i.e. what line 56 would read with the comma
after the format string restored. -/
def set_err_invalid_int_intended_call : List CTok :=
  [CTok.ident ("PyErr_Format"), CTok.lparen,
   CTok.ident ("PyExc_ValueError"), CTok.comma,
   CTok.strLit FN_INT_MSG, CTok.comma, CTok.lparen, CTok.ident ("o"),
   CTok.rparen, CTok.arrow, CTok.ident ("input"), CTok.rparen]

/-- Split a token run at its parenthesis-depth-0 commas, accumulating the
current argument in reverse: the comma-separated argument list of a call
body. -/
def splitArgs : List CTok → ℕ → List CTok → List (List CTok)
  | [], _, cur => [cur.reverse]
  | CTok.comma :: ts, 0, cur => cur.reverse :: splitArgs ts 0 []
  | CTok.lparen :: ts, d, cur => splitArgs ts (d + 1) (CTok.lparen :: cur)
  | CTok.rparen :: ts, d, cur => splitArgs ts (d - 1) (CTok.rparen :: cur)
  | t :: ts, d, cur => splitArgs ts d (t :: cur)

/-- The top-level comma-separated arguments of a call token run of the
form `f ( … )`. -/
def callArgs : List CTok → List (List CTok)
  | CTok.ident _ :: CTok.lparen :: rest => splitArgs rest.dropLast 0 []
  | _ => []

/-- Whether a token run contains a string literal immediately followed by
`(`.  In C a string literal is a complete primary expression of array
type and cannot be called, so such a run is not a valid expression
(constraint violation, C11 6.5.2.2). -/
def strApplied : List CTok → Bool
  | CTok.strLit _ :: CTok.lparen :: _ => true
  | _ :: ts => strApplied ts
  | [] => false

/-- From number_handling.h lines 62-65: `SET_ILLEGAL_BASE_ERROR(o)` sets a
`TypeError` only when `Options_Should_Raise(o)`. -/
def SET_ILLEGAL_BASE_ERROR (o : Options) : Option (ExcType × String) :=
  if Options_Should_Raise o then
    some (ExcType.TypeError, "int() can\x27t convert non-string with explicit base")
  else none

/-- Decimal digit characters for rendering. -/
def digitChar (d : ℕ) : Char := Char.ofNat (48 + d)

/-- Fuel-driven decimal rendering of a natural number (most significant digit
first); fuel `n` suffices for input `n`. -/
def renderNatF : ℕ → ℕ → List Char
  | 0, _ => []
  | f + 1, n => if n = 0 then [] else renderNatF f (n / 10) ++ [digitChar (n % 10)]

/-- Canonical decimal rendering of a natural number. -/
def renderNat (n : ℕ) : List Char :=
  if n = 0 then ['0'] else renderNatF n n

/-- Modelled from the spec: the arbitrary-precision facility's canonical
decimal rendering of an integer (section 6). -/
def renderInt (v : ℤ) : List Char :=
  (if v < 0 then ['-'] else []) ++ renderNat v.natAbs

/-! ## Supporting lemmas -/

deriving instance DecidableEq for Except

theorem ws_char_cases (c : Char) (h : c.isWhitespace = true) :
    c = ' ' ∨ c = '\t' ∨ c = '\r' ∨ c = '\n' := by
  simp [Char.isWhitespace, Bool.or_eq_true, decide_eq_true_eq] at h
  tauto

theorem scan_nil (o : Options) : scan [] o = Classification.Invalid := by
  unfold scan stripWs
  cases o.allow_leading_ws <;> cases o.allow_trailing_ws <;> simp [dropTrail] <;> rfl

theorem scan_all_ws (s : List Char) (h : ∀ c ∈ s, c.isWhitespace = true) (o : Options) :
    scan s o = Classification.Invalid := by
  have hdw : s.dropWhile Char.isWhitespace = [] := by
    rw [List.dropWhile_eq_nil_iff]
    intro a ha
    simp [h a ha]
  have hdt : dropTrail s = [] := by
    unfold dropTrail
    have hr : s.reverse.dropWhile Char.isWhitespace = [] := by
      rw [List.dropWhile_eq_nil_iff]
      intro a ha
      simp [h a (List.mem_reverse.mp ha)]
    rw [hr]
    rfl
  have key : ∀ u, scanCore u s = Classification.Invalid := by
    intro u
    cases s with
    | nil => rfl
    | cons c r =>
      have hc := h c (List.mem_cons_self c r)
      rcases ws_char_cases c hc with rfl | rfl | rfl | rfl <;> rfl
  have key0 : ∀ u, scanCore u [] = Classification.Invalid := fun u => rfl
  simp only [scan, stripWs]
  by_cases hlw : o.allow_leading_ws = true
  · rw [if_pos hlw, hdw]
    by_cases htw : o.allow_trailing_ws = true
    · rw [if_pos htw]
      exact key0 _
    · rw [if_neg htw]
      exact key0 _
  · rw [if_neg hlw]
    by_cases htw : o.allow_trailing_ws = true
    · rw [if_pos htw, hdt]
      exact key0 _
    · rw [if_neg htw]
      exact key _

theorem trunc_abs_le (q : ℚ) :
    |((truncQ q : ℤ) : ℚ)| ≤ |q| ∧ |q| < |((truncQ q : ℤ) : ℚ)| + 1 := by
  unfold truncQ
  split
  · rename_i hq
    have h1 : (0 : ℚ) ≤ (⌊q⌋ : ℚ) := by exact_mod_cast Int.floor_nonneg.mpr hq
    rw [abs_of_nonneg hq, abs_of_nonneg h1]
    exact ⟨Int.floor_le q, Int.lt_floor_add_one q⟩
  · rename_i hq
    push_neg at hq
    have hc0 : (⌈q⌉ : ℤ) ≤ 0 := Int.ceil_le.mpr (by exact_mod_cast hq.le)
    have hc : ((⌈q⌉ : ℤ) : ℚ) ≤ 0 := by exact_mod_cast hc0
    rw [abs_of_neg hq, abs_of_nonpos hc]
    constructor
    · linarith [Int.le_ceil q]
    · linarith [Int.ceil_lt_add_one q]

/-! ## Claim theorems (first batch) -/

/-- Claim C2: an error is surfaced by `convert` exactly when the policy is
`Raise` and the dispatch layer produced a tagged failure; under any other
policy the failure is absorbed per the policy table; in particular
`convert("abc", Int, ReturnDefault(0))` is `0` with no error surfaced. -/
theorem error_surfaced_iff_raise :
    (∀ v t o, (∃ e, convert v t o = Outcome.err e) ↔
      (o.policy = ErrorPolicy.Raise ∧ ∃ e, dispatch v t o = Except.error e)) ∧
    (∀ v t o e, dispatch v t o = Except.error e → convert v t o = absorb o v e) ∧
    convert (PyValue.str "abc".data) TargetKind.Int
        { defaultOptions with policy := ErrorPolicy.ReturnDefault (PyValue.int 0) } =
      Outcome.ok (PyValue.int 0) := by
  refine ⟨?_, ?_, by decide⟩
  · intro v t o
    constructor
    · rintro ⟨e, he⟩
      unfold convert at he
      cases hd : dispatch v t o with
      | ok r => rw [hd] at he; exact absurd he (by simp)
      | error e2 =>
        rw [hd] at he
        unfold absorb at he
        cases hp : o.policy <;> rw [hp] at he <;> simp_all
    · rintro ⟨hp, e, hd⟩
      refine ⟨e, ?_⟩
      unfold convert absorb
      rw [hd, hp]
  · intro v t o e hd
    unfold convert
    rw [hd]

/-- Witness for C2: on the invalid literal `"abc"` with target `Int`, the
dispatch failure is absorbed per the policy table. -/
theorem error_surfaced_iff_raise_witness :
    convert (PyValue.str "abc".data) TargetKind.Int defaultOptions =
      absorb defaultOptions (PyValue.str "abc".data) ErrorKind.InvalidLiteral :=
  error_surfaced_iff_raise.2.1 _ _ _ _ (by decide)

/-- Claim C3: the dispatcher's tagged failures are only `InvalidLiteral` or
`NonFiniteToInt` — never `Overflow` — and converting the 20-digit literal
`"99999999999999999999"` to `Int` under default options yields the exact
arbitrary-precision value. -/
theorem no_overflow_on_int_path :
    (∀ v t o e, dispatch v t o = Except.error e →
      e = ErrorKind.InvalidLiteral ∨ e = ErrorKind.NonFiniteToInt) ∧
    dispatch (PyValue.str "99999999999999999999".data) TargetKind.Int defaultOptions =
      Except.ok (NumericResult.BigInt 99999999999999999999) ∧
    convert (PyValue.str "99999999999999999999".data) TargetKind.Int defaultOptions =
      Outcome.ok (PyValue.int 99999999999999999999) := by
  refine ⟨?_, by decide, by decide⟩
  intro v t o e hd
  cases v with
  | int n => cases t <;> simp [dispatch] at hd
  | float f => cases t <;> cases f <;> simp [dispatch, PyFloat_to_PyInt] at hd <;> simp [hd]
  | str s =>
    simp only [dispatch] at hd
    cases hs : scan s o <;> rw [hs] at hd <;> cases t <;> simp at hd <;>
        try simp [hd]
    rename_i neg ip fp eneg ep
    split at hd <;> simp at hd

/-- Witness for C3: the only tagged failure on `"abc"` is `InvalidLiteral`. -/
theorem no_overflow_on_int_path_witness :
    ErrorKind.InvalidLiteral = ErrorKind.InvalidLiteral ∨
      ErrorKind.InvalidLiteral = ErrorKind.NonFiniteToInt :=
  no_overflow_on_int_path.1 (PyValue.str "abc".data) TargetKind.Int defaultOptions
    ErrorKind.InvalidLiteral (by decide)

/-- Claim C4: `ForceInt` on a finite float truncates toward zero — the
result's magnitude never exceeds the input's and differs from it by less
than one — while NaN and the infinities are tagged `NonFiniteToInt`, which
surfaces under the `Raise` policy; `convert(3.0, ForceInt)` is `3`. -/
theorem forceint_truncates_toward_zero :
    (∀ q o, dispatch (PyValue.float (FloatVal.finite q)) TargetKind.ForceInt o =
      Except.ok (intToResult (truncQ q))) ∧
    (∀ q : ℚ, |((truncQ q : ℤ) : ℚ)| ≤ |q| ∧ |q| < |((truncQ q : ℤ) : ℚ)| + 1) ∧
    (∀ lw tw us b,
      convert (PyValue.float FloatVal.nan) TargetKind.ForceInt
          ⟨lw, tw, us, ErrorPolicy.Raise⟩ = Outcome.err ErrorKind.NonFiniteToInt ∧
      convert (PyValue.float (FloatVal.inf b)) TargetKind.ForceInt
          ⟨lw, tw, us, ErrorPolicy.Raise⟩ = Outcome.err ErrorKind.NonFiniteToInt) ∧
    convert (PyValue.float (FloatVal.finite 3)) TargetKind.ForceInt defaultOptions =
      Outcome.ok (PyValue.int 3) := by
  refine ⟨fun q o => rfl, trunc_abs_le, fun lw tw us b => ⟨rfl, rfl⟩, by decide⟩

/-- Claim C7: the Scanner returns the tagged `Invalid` — it never throws —
on the empty string, on whitespace-only strings, on a solitary sign, and on
any literal whose exponent marker is not followed by a digit (`"1e"`),
under every option configuration. -/
theorem scanner_invalid_edge_cases :
    (∀ o, scan [] o = Classification.Invalid) ∧
    (∀ s o, (∀ c ∈ s, c.isWhitespace = true) → scan s o = Classification.Invalid) ∧
    (∀ o, scan ['+'] o = Classification.Invalid ∧ scan ['-'] o = Classification.Invalid) ∧
    (∀ o, scan ['1', 'e'] o = Classification.Invalid) ∧
    (∀ u neg ip fp r, digitRun u (parseSign r).2 = none →
      parseExp u neg ip fp ('e' :: r) = Classification.Invalid ∧
      parseExp u neg ip fp ('E' :: r) = Classification.Invalid) := by
  refine ⟨scan_nil, fun s o h => scan_all_ws s h o, ?_, ?_, ?_⟩
  · intro o
    obtain ⟨lw, tw, us, pol⟩ := o
    exact ⟨by cases lw <;> cases tw <;> rfl, by cases lw <;> cases tw <;> rfl⟩
  · intro o
    obtain ⟨lw, tw, us, pol⟩ := o
    cases lw <;> cases tw <;> cases us <;> rfl
  · intro u neg ip fp r h
    constructor <;> simp [parseExp, h]

/-- Witness for C7: the whitespace-only and missing-exponent-digit
hypotheses discharged on concrete inputs. -/
theorem scanner_invalid_edge_cases_witness :
    scan [' ', '\t'] defaultOptions = Classification.Invalid ∧
    parseExp true false ['1'] [] ('e' :: []) = Classification.Invalid :=
  ⟨scanner_invalid_edge_cases.2.1 [' ', '\t'] defaultOptions (by decide),
   (scanner_invalid_edge_cases.2.2.2.2 true false ['1'] [] [] (by decide)).1⟩

/-- Claim C9: the NaN/infinity tests from number_handling.h are false on
every non-float input — only a float-typed value can be classified
not-a-number or infinite. -/
theorem non_float_never_nan_or_inf (v : PyValue) (h : PyFloat_Check v = false) :
    PyNumber_IsNAN v = false ∧ PyNumber_IsINF v = false := by
  unfold PyNumber_IsNAN PyNumber_IsINF
  rw [h]
  exact ⟨rfl, rfl⟩

/-- Witness for C9: a large integer input is neither NaN nor infinite. -/
theorem non_float_never_nan_or_inf_witness :
    PyNumber_IsNAN (PyValue.int 99999999999999999999) = false ∧
    PyNumber_IsINF (PyValue.int 99999999999999999999) = false :=
  non_float_never_nan_or_inf (PyValue.int 99999999999999999999) rfl

/-- Claim C10: refuted by the source — a code bug.  The claim says an
invalid integer literal raises `ValueError` with the host's message under
the `Raise` policy.  But the Python-3 branch of `SET_ERR_INVALID_INT`
(number_handling.h line 56) omits the comma between the format string and
`(o)->input`: its expansion passes `PyErr_Format` only two top-level
arguments, and the second applies the string literal `FN_INT_MSG` to
`(o)`, which is ill-formed C, so this error site cannot raise
`ValueError` with the host's message.  The intended three-argument call
differs from the source exactly by the missing comma, as the sibling
`SET_ERR_INVALID_FLOAT` (line 59) and the Python-2 branch (line 43) both
show.  The `TypeError` half of the claim and the `Options_Should_Raise`
guard do hold. -/
theorem raise_int_macro_malformed :
    (callArgs set_err_invalid_int_call).length = 2 ∧
    strApplied ((callArgs set_err_invalid_int_call).getD 1 []) = true ∧
    set_err_invalid_int_intended_call =
      set_err_invalid_int_call.take 5 ++
        CTok.comma :: set_err_invalid_int_call.drop 5 ∧
    set_err_invalid_int_call ≠ set_err_invalid_int_intended_call ∧
    (callArgs set_err_invalid_int_intended_call).length = 3 ∧
    strApplied set_err_invalid_int_intended_call = false ∧
    (callArgs set_err_invalid_float_call).length = 3 ∧
    strApplied set_err_invalid_float_call = false ∧
    (callArgs set_err_invalid_int_py2_format_call).length = 2 ∧
    strApplied set_err_invalid_int_py2_format_call = false ∧
    (∀ o, (SET_ILLEGAL_BASE_ERROR o).isSome = Options_Should_Raise o) ∧
    SET_ILLEGAL_BASE_ERROR defaultOptions =
      some (ExcType.TypeError, "int() can\x27t convert non-string with explicit base") ∧
    (∀ o, Options_Should_Raise o = true ↔ o.policy = ErrorPolicy.Raise) := by
  refine ⟨by decide, by decide, by decide, by decide, by decide, by decide,
    by decide, by decide, by decide, by decide, ?_, rfl, ?_⟩
  · intro o
    unfold SET_ILLEGAL_BASE_ERROR
    cases h : Options_Should_Raise o <;> simp [h]
  · intro o
    unfold Options_Should_Raise
    cases hp : o.policy <;> simp [hp]

/-- Claim C5: `is_int_like` is true exactly when the scan classifies the
text as an integer span, or as a float span whose extracted double has
exactly zero fractional part. -/
theorem is_int_like_iff_integer_valued (s : List Char) (o : Options) :
    is_int_like s o = true ↔
      ((∃ neg ds, scan s o = Classification.IntegerSpan neg ds) ∨
       (∃ neg ip fp eneg ep, scan s o = Classification.FloatSpan neg ip fp eneg ep ∧
         ∃ z : ℤ, roundDouble (floatSpanVal neg ip fp eneg ep) = (z : ℚ))) := by
  unfold is_int_like
  cases hs : scan s o with
  | Invalid => simp [hs]
  | IntegerSpan neg ds => simp [hs]
  | FloatSpan neg ip fp eneg ep =>
    simp only [hs, PyFloat_is_Intlike, Classification.FloatSpan.injEq, beq_iff_eq]
    constructor
    · intro h
      refine Or.inr ⟨neg, ip, fp, eneg, ep, ⟨rfl, rfl, rfl, rfl, rfl⟩, ?_⟩
      exact ⟨(roundDouble (floatSpanVal neg ip fp eneg ep)).num,
        ((Rat.den_eq_one_iff _).mp h).symm⟩
    · rintro (⟨neg2, ds2, h2⟩ | ⟨n2, i2, f2, e2, p2, ⟨rfl, rfl, rfl, rfl, rfl⟩, z, hz⟩)
      · exact absurd h2 (by simp)
      · rw [hz]
        exact Rat.den_intCast z
  | SpecialSpan isNan sneg => simp [hs]

/-- Witness for C5: `is_int_like` holds on the plain integer literal
`"42"`. -/
theorem is_int_like_iff_integer_valued_witness :
    is_int_like "42".data defaultOptions = true :=
  (is_int_like_iff_integer_valued "42".data defaultOptions).mpr
    (Or.inl ⟨false, ['4', '2'], by decide⟩)

/-! ## Round-trip support (claim C1) -/

theorem char_toNat_inj {c d : Char} (h : c.toNat = d.toNat) : c = d := by
  rw [← Char.ofNat_toNat c, h, Char.ofNat_toNat]

theorem digit_ne_of (c x : Char) (hc : c.isDigit = true) (hx : x.isDigit = false) : c ≠ x := by
  intro heq
  subst heq
  rw [hc] at hx
  exact absurd hx (by decide)

theorem digit_eqCI_false (c l : Char) (hc : c.isDigit = true) (hld : l.isDigit = false)
    (hud : (Char.ofNat (l.toNat - 32)).isDigit = false) : eqCI c l = false := by
  unfold eqCI
  have h1 : c ≠ l := digit_ne_of c l hc hld
  have h2 : c.toNat ≠ l.toNat - 32 := by
    intro h
    have hceq : c = Char.ofNat (l.toNat - 32) := by
      rw [← Char.ofNat_toNat c, h]
    exact digit_ne_of c _ hc hud hceq
  simp [h1, h2]

theorem digit_not_ws (c : Char) (h : c.isDigit = true) : c.isWhitespace = false := by
  by_cases hw : c.isWhitespace = true
  · rcases ws_char_cases c hw with rfl | rfl | rfl | rfl <;> exact absurd h (by decide)
  · simpa using hw

theorem parseSign_cons (c : Char) (r : List Char) (h1 : c ≠ '+') (h2 : c ≠ '-') :
    parseSign (c :: r) = (false, c :: r) := by
  rw [parseSign.eq_def]
  split <;> simp_all

theorem stripWs_no_ws (o : Options) (l : List Char) (h : ∀ c ∈ l, c.isWhitespace = false) :
    stripWs o l = l := by
  have h1 : l.dropWhile Char.isWhitespace = l := by
    cases l with
    | nil => rfl
    | cons a r =>
      rw [List.dropWhile_cons, h a (List.mem_cons_self a r)]
      simp
  have h2 : dropTrail l = l := by
    unfold dropTrail
    have hr : l.reverse.dropWhile Char.isWhitespace = l.reverse := by
      cases hrev : l.reverse with
      | nil => rfl
      | cons a r =>
        have ha : a ∈ l := by
          rw [← List.mem_reverse, hrev]
          exact List.mem_cons_self a r
        rw [List.dropWhile_cons, h a ha]
        simp
    rw [hr, List.reverse_reverse]
  unfold stripWs
  by_cases hlw : o.allow_leading_ws = true <;>
    by_cases htw : o.allow_trailing_ws = true <;>
      simp [hlw, htw, h1, h2]

theorem drun_all_digits (u : Bool) (l : List Char) (h : ∀ c ∈ l, c.isDigit = true) :
    drun u l = (l, []) := by
  induction l with
  | nil => rfl
  | cons c r ih =>
    have hc := h c (List.mem_cons_self c r)
    have ih2 := ih (fun x hx => h x (List.mem_cons_of_mem c hx))
    simp [drun, hc, ih2]

theorem scanCore_digits (u : Bool) (c : Char) (r : List Char) (hc : c.isDigit = true)
    (h : ∀ x ∈ r, x.isDigit = true) :
    scanCore u (c :: r) = Classification.IntegerSpan false (c :: r) := by
  have hps : parseSign (c :: r) = (false, c :: r) :=
    parseSign_cons c r (digit_ne_of c '+' hc (by decide)) (digit_ne_of c '-' hc (by decide))
  have hmi : eqCI c 'i' = false := digit_eqCI_false c 'i' hc (by decide) (by decide)
  have hmn : eqCI c 'n' = false := digit_eqCI_false c 'n' hc (by decide) (by decide)
  have hdr : digitRun u (c :: r) = some (c :: r, []) := by
    simp [digitRun, hc, drun_all_digits u r h]
  unfold scanCore
  rw [hps]
  simp only [matchCI, hmi, hmn, Bool.false_and, Bool.or_self, if_false, Bool.false_eq_true]
  unfold parseNum
  rw [hdr]
  rfl

theorem scan_digits (c : Char) (r : List Char) (hc : c.isDigit = true)
    (h : ∀ x ∈ r, x.isDigit = true) (o : Options) :
    scan (c :: r) o = Classification.IntegerSpan false (c :: r) := by
  unfold scan
  rw [stripWs_no_ws o (c :: r) ?_]
  · exact scanCore_digits _ c r hc h
  · intro x hx
    rcases List.mem_cons.mp hx with rfl | hx2
    · exact digit_not_ws x hc
    · exact digit_not_ws x (h x hx2)

theorem scan_neg_digits (c : Char) (r : List Char) (hc : c.isDigit = true)
    (h : ∀ x ∈ r, x.isDigit = true) (o : Options) :
    scan ('-' :: c :: r) o = Classification.IntegerSpan true (c :: r) := by
  unfold scan
  rw [stripWs_no_ws o ('-' :: c :: r) ?_]
  · have hps : parseSign ('-' :: c :: r) = (true, c :: r) := rfl
    have hmi : eqCI c 'i' = false := digit_eqCI_false c 'i' hc (by decide) (by decide)
    have hmn : eqCI c 'n' = false := digit_eqCI_false c 'n' hc (by decide) (by decide)
    have hdr : digitRun o.allow_underscores (c :: r) = some (c :: r, []) := by
      simp [digitRun, hc, drun_all_digits _ r h]
    unfold scanCore
    rw [hps]
    simp only [matchCI, hmi, hmn, Bool.false_and, Bool.or_self, if_false, Bool.false_eq_true]
    unfold parseNum
    rw [hdr]
    rfl
  · intro x hx
    rcases List.mem_cons.mp hx with rfl | hx2
    · decide
    · rcases List.mem_cons.mp hx2 with rfl | hx3
      · exact digit_not_ws x hc
      · exact digit_not_ws x (h x hx3)

theorem digitChar_isDigit (d : ℕ) (hd : d < 10) : (digitChar d).isDigit = true := by
  interval_cases d <;> decide

theorem digitChar_toNat (d : ℕ) (hd : d < 10) : (digitChar d).toNat = 48 + d := by
  interval_cases d <;> decide

theorem renderNatF_digits (f : ℕ) :
    ∀ n, n ≤ f → ∀ c ∈ renderNatF f n, c.isDigit = true := by
  induction f with
  | zero =>
    intro n hn c hc
    simp [renderNatF] at hc
  | succ f ih =>
    intro n hn c hc
    by_cases h0 : n = 0
    · simp [renderNatF, h0] at hc
    · rw [renderNatF, if_neg h0] at hc
      rcases List.mem_append.mp hc with h | h
      · have hlt : n / 10 ≤ f := by
          have := Nat.div_lt_self (Nat.pos_of_ne_zero h0) (by norm_num : 1 < 10)
          omega
        exact ih (n / 10) hlt c h
      · have : c = digitChar (n % 10) := by simpa using h
        subst this
        exact digitChar_isDigit _ (Nat.mod_lt n (by norm_num))

theorem renderNat_digits (n : ℕ) : ∀ c ∈ renderNat n, c.isDigit = true := by
  unfold renderNat
  split
  · intro c hc
    simp at hc
    subst hc
    decide
  · exact renderNatF_digits n n le_rfl

theorem renderNatF_fold (f : ℕ) :
    ∀ n, n ≤ f → ∀ a : ℕ,
      (renderNatF f n).foldl (fun a c => 10 * a + (c.toNat - 48)) a =
        a * 10 ^ (renderNatF f n).length + n := by
  induction f with
  | zero =>
    intro n hn a
    interval_cases n
    simp [renderNatF]
  | succ f ih =>
    intro n hn a
    by_cases h0 : n = 0
    · simp [renderNatF, h0]
    · rw [renderNatF, if_neg h0]
      have hlt : n / 10 ≤ f := by
        have := Nat.div_lt_self (Nat.pos_of_ne_zero h0) (by norm_num : 1 < 10)
        omega
      rw [List.foldl_append, ih (n / 10) hlt a]
      simp only [List.foldl_cons, List.foldl_nil, List.length_append, List.length_cons,
        List.length_nil]
      rw [digitChar_toNat (n % 10) (Nat.mod_lt n (by norm_num))]
      have : 48 + n % 10 - 48 = n % 10 := by omega
      rw [this]
      have hmod := Nat.div_add_mod n 10
      ring_nf
      omega

theorem filter_no_underscore (l : List Char) (h : ∀ c ∈ l, c.isDigit = true) :
    l.filter (fun c => !(c == '_')) = l := by
  induction l with
  | nil => rfl
  | cons c r ih =>
    have hc := h c (List.mem_cons_self c r)
    have hne : (!(c == '_')) = true := by
      have : c ≠ '_' := digit_ne_of c '_' hc (by decide)
      simp [this]
    rw [List.filter_cons, if_pos hne, ih (fun x hx => h x (List.mem_cons_of_mem c hx))]

theorem digitsVal_renderNat (n : ℕ) : digitsVal (renderNat n) = n := by
  unfold digitsVal
  rw [filter_no_underscore _ (renderNat_digits n)]
  unfold renderNat
  split
  · simp_all
  · rw [renderNatF_fold n n le_rfl 0]
    simp

theorem renderNatF_ne_nil (f n : ℕ) (hf : n ≤ f) (h0 : n ≠ 0) : renderNatF f n ≠ [] := by
  cases f with
  | zero => omega
  | succ f =>
    rw [renderNatF, if_neg h0]
    simp

theorem renderNat_ne_nil (n : ℕ) : renderNat n ≠ [] := by
  unfold renderNat
  split
  · simp
  · rename_i h0
    exact renderNatF_ne_nil n n le_rfl h0

theorem scan_renderInt (v : ℤ) (o : Options) :
    scan (renderInt v) o = Classification.IntegerSpan (decide (v < 0)) (renderNat v.natAbs) := by
  obtain ⟨c, r, hcr⟩ : ∃ c r, renderNat v.natAbs = c :: r := by
    cases hrn : renderNat v.natAbs with
    | nil => exact absurd hrn (renderNat_ne_nil _)
    | cons c r => exact ⟨c, r, rfl⟩
  have hds := renderNat_digits v.natAbs
  rw [hcr] at hds
  have hc := hds c (List.mem_cons_self c r)
  have hr := fun x hx => hds x (List.mem_cons_of_mem c hx)
  unfold renderInt
  by_cases hv : v < 0
  · rw [if_pos hv, hcr]
    rw [show ['-'] ++ c :: r = '-' :: c :: r from rfl]
    rw [scan_neg_digits c r hc hr o]
    simp [hv]
  · rw [if_neg hv, hcr]
    rw [List.nil_append]
    rw [scan_digits c r hc hr o]
    simp [hv]

theorem intSpanVal_render (v : ℤ) :
    intSpanVal (decide (v < 0)) (renderNat v.natAbs) = v := by
  unfold intSpanVal
  rw [digitsVal_renderNat]
  by_cases hv : v < 0
  · have habs : ((v.natAbs : ℤ)) = -v := by omega
    rw [habs]
    simp [hv]
  · have habs : ((v.natAbs : ℤ)) = v := by omega
    rw [habs]
    simp [hv]

/-- Claim C1: for every integer literal the Scanner accepts, rendering the
extracted value back to decimal text and re-scanning it (under any options)
classifies as an integer span again and reproduces the identical
arbitrary-precision value. -/
theorem integer_literal_roundtrip (s : List Char) (o : Options) (neg : Bool) (ds : List Char)
    (_h : scan s o = Classification.IntegerSpan neg ds) (o2 : Options) :
    scan (renderInt (intSpanVal neg ds)) o2 =
        Classification.IntegerSpan (decide (intSpanVal neg ds < 0))
          (renderNat (intSpanVal neg ds).natAbs) ∧
    intSpanVal (decide (intSpanVal neg ds < 0)) (renderNat (intSpanVal neg ds).natAbs) =
      intSpanVal neg ds :=
  ⟨scan_renderInt _ o2, intSpanVal_render _⟩

/-- Witness for C1: the underscored literal `"1_000"` scans as an integer
span, and its rendered decimal form re-scans to the identical value. -/
theorem integer_literal_roundtrip_witness :
    scan "1_000".data defaultOptions =
        Classification.IntegerSpan false ['1', '_', '0', '0', '0'] ∧
    (scan (renderInt (intSpanVal false ['1', '_', '0', '0', '0'])) defaultOptions =
        Classification.IntegerSpan
          (decide (intSpanVal false ['1', '_', '0', '0', '0'] < 0))
          (renderNat (intSpanVal false ['1', '_', '0', '0', '0']).natAbs) ∧
      intSpanVal (decide (intSpanVal false ['1', '_', '0', '0', '0'] < 0))
          (renderNat (intSpanVal false ['1', '_', '0', '0', '0']).natAbs) =
        intSpanVal false ['1', '_', '0', '0', '0']) :=
  ⟨by decide,
   integer_literal_roundtrip "1_000".data defaultOptions false ['1', '_', '0', '0', '0']
     (by decide) defaultOptions⟩

/-! ## Underscore placement (claim C6) -/

/-- Every underscore in the list sits strictly between two digits: any split
around an underscore has a digit immediately before and after it. -/
def GoodU (s : List Char) : Prop :=
  ∀ pre post, s = pre ++ '_' :: post →
    (∃ p e, pre = p ++ [e] ∧ e.isDigit = true) ∧
    (∃ e p, post = e :: p ∧ e.isDigit = true)

theorem GoodU_of_not_mem (s : List Char) (h : '_' ∉ s) : GoodU s := by
  intro pre post hs
  exact absurd (by rw [hs]; simp : '_' ∈ s) h

theorem GoodU_append (A B : List Char) (hA : GoodU A) (hB : GoodU B) : GoodU (A ++ B) := by
  intro pre post hs
  rcases List.append_eq_append_iff.mp hs with ⟨m, hm1, hm2⟩ | ⟨m, hm1, hm2⟩
  · -- hm1 : pre = A ++ m, hm2 : B = m ++ '_' :: post
    obtain ⟨⟨p, e, hpe, he⟩, hpost⟩ := hB m post hm2
    subst hm1
    exact ⟨⟨A ++ p, e, by rw [hpe, List.append_assoc], he⟩, hpost⟩
  · -- hm1 : A = pre ++ m, hm2 : '_' :: post = m ++ B
    cases m with
    | nil =>
      obtain ⟨⟨p, e, hpe, he⟩, hpost⟩ := hB [] post (by simpa using hm2.symm)
      simp at hpe
    | cons x m2 =>
      obtain ⟨hx, hrest⟩ : '_' = x ∧ post = m2 ++ B := by simpa using hm2
      subst hx
      obtain ⟨hpre, ⟨e, p2, hm2eq, he⟩⟩ := hA pre m2 hm1
      refine ⟨hpre, e, p2 ++ B, ?_, he⟩
      rw [hrest, hm2eq]
      rfl

/-- The shape invariant of a digit-run continuation: a digit run after an
initial digit is digits interleaved with single underscores that are each
followed (and, by construction, preceded) by a digit. -/
inductive TailRun : List Char → Prop where
  | nil : TailRun []
  | digit {c : Char} {t : List Char} : c.isDigit = true → TailRun t → TailRun (c :: t)
  | und {t : List Char} : TailRun t → headDigit t = true → TailRun ('_' :: t)

/-- A valid split around the underscore inside a tail run: the part before is
empty or ends with a digit, the part after starts with a digit. -/
def AlmostGood (t : List Char) : Prop :=
  ∀ pre post, t = pre ++ '_' :: post →
    (pre = [] ∨ ∃ p e, pre = p ++ [e] ∧ e.isDigit = true) ∧
    (∃ e p, post = e :: p ∧ e.isDigit = true)

theorem tailRun_almostGood {t : List Char} (ht : TailRun t) : AlmostGood t := by
  induction ht with
  | nil =>
    intro pre post hs
    exact absurd hs (by simp)
  | digit hc ht2 ih =>
    rename_i c t2
    intro pre post hs
    cases pre with
    | nil =>
      simp at hs
      obtain ⟨rfl, _⟩ := hs
      exact absurd hc (by decide)
    | cons x pre2 =>
      obtain ⟨rfl, hrest⟩ : x = c ∧ t2 = pre2 ++ '_' :: post := by
        have := hs
        simp at this
        tauto
      obtain ⟨hpre2, hpost⟩ := ih pre2 post hrest
      refine ⟨?_, hpost⟩
      rcases hpre2 with rfl | ⟨p, e, hpe, he⟩
      · exact Or.inr ⟨[], x, rfl, hc⟩
      · exact Or.inr ⟨x :: p, e, by simp [hpe], he⟩
  | und ht2 hh ih =>
    rename_i t2
    intro pre post hs
    cases pre with
    | nil =>
      simp at hs
      subst hs
      refine ⟨Or.inl rfl, ?_⟩
      cases t2 with
      | nil => exact absurd hh (by simp [headDigit])
      | cons e p => exact ⟨e, p, rfl, hh⟩
    | cons x pre2 =>
      obtain ⟨rfl, hrest⟩ : x = '_' ∧ t2 = pre2 ++ '_' :: post := by
        have := hs
        simp at this
        tauto
      obtain ⟨hpre2, hpost⟩ := ih pre2 post hrest
      refine ⟨?_, hpost⟩
      rcases hpre2 with rfl | ⟨p, e, hpe, he⟩
      · simp at hrest
        rw [hrest] at hh
        exact absurd hh (by simp [headDigit])
      · exact Or.inr ⟨'_' :: p, e, by simp [hpe], he⟩

theorem run_goodU (c : Char) (t : List Char) (hc : c.isDigit = true) (ht : TailRun t) :
    GoodU (c :: t) := by
  intro pre post hs
  cases pre with
  | nil =>
    simp at hs
    obtain ⟨rfl, _⟩ := hs
    exact absurd hc (by decide)
  | cons x pre2 =>
    obtain ⟨rfl, hrest⟩ : x = c ∧ t = pre2 ++ '_' :: post := by
      have := hs
      simp at this
      tauto
    obtain ⟨hpre2, hpost⟩ := tailRun_almostGood ht pre2 post hrest
    refine ⟨?_, hpost⟩
    rcases hpre2 with rfl | ⟨p, e, hpe, he⟩
    · exact ⟨[], x, rfl, hc⟩
    · exact ⟨x :: p, e, by simp [hpe], he⟩

theorem drun_append (u : Bool) (s : List Char) : (drun u s).1 ++ (drun u s).2 = s := by
  induction s with
  | nil => rfl
  | cons c rest ih =>
    rw [drun]
    split
    · simpa using ih
    · split
      · simpa using ih
      · simp

theorem drun_head (u : Bool) (d : Char) (r : List Char) (hd : d.isDigit = true) :
    ∃ t, (drun u (d :: r)).1 = d :: t := by
  rw [drun, if_pos hd]
  exact ⟨_, rfl⟩

theorem drun_tailRun (u : Bool) (s : List Char) : TailRun (drun u s).1 := by
  induction s with
  | nil => exact TailRun.nil
  | cons c rest ih =>
    rw [drun]
    split
    · rename_i hc
      exact TailRun.digit hc ih
    · split
      · rename_i hcond
        simp only [Bool.and_eq_true, beq_iff_eq] at hcond
        obtain ⟨⟨rfl, _⟩, hh⟩ := hcond
        cases rest with
        | nil => simp [headDigit] at hh
        | cons d rest2 =>
          have hd : d.isDigit = true := by simpa [headDigit] using hh
          obtain ⟨t, ht⟩ := drun_head u d rest2 hd
          refine TailRun.und ih ?_
          rw [ht]
          simpa [headDigit] using hd
      · exact TailRun.nil

theorem drun_false_digits (s : List Char) : ∀ c ∈ (drun false s).1, c.isDigit = true := by
  induction s with
  | nil => intro c hc; simp [drun] at hc
  | cons c rest ih =>
    rw [drun]
    split
    · rename_i hc
      intro x hx
      rcases List.mem_cons.mp hx with rfl | hx2
      · exact hc
      · exact ih x hx2
    · split
      · rename_i hcond
        simp at hcond
      · intro x hx
        simp at hx

theorem digitRun_decomp (u : Bool) (s ds rest : List Char)
    (h : digitRun u s = some (ds, rest)) :
    s = ds ++ rest ∧ GoodU ds ∧ (u = false → ∀ c ∈ ds, c.isDigit = true) ∧
      ∃ c t, ds = c :: t ∧ c.isDigit = true := by
  cases s with
  | nil => simp [digitRun] at h
  | cons c r =>
    simp only [digitRun] at h
    by_cases hc : c.isDigit = true
    · rw [if_pos hc] at h
      simp only [Option.some.injEq, Prod.mk.injEq] at h
      obtain ⟨hds, hrest⟩ := h
      subst hds
      subst hrest
      refine ⟨?_, ?_, ?_, c, _, rfl, hc⟩
      · simpa using (drun_append u r).symm
      · exact run_goodU c _ hc (drun_tailRun u r)
      · rintro rfl x hx
        rcases List.mem_cons.mp hx with rfl | hx2
        · exact hc
        · exact drun_false_digits r x hx2
    · rw [if_neg hc] at h
      simp at h

theorem digits_no_underscore (l : List Char) (h : ∀ c ∈ l, c.isDigit = true) : '_' ∉ l := by
  intro hm
  exact absurd (h '_' hm) (by decide)

theorem parseSign_decomp (r : List Char) :
    ∃ sg, r = sg ++ (parseSign r).2 ∧ '_' ∉ sg := by
  cases r with
  | nil => exact ⟨[], rfl, by simp⟩
  | cons x r2 =>
    by_cases h1 : x = '+'
    · subst h1
      exact ⟨['+'], rfl, by decide⟩
    · by_cases h2 : x = '-'
      · subst h2
        exact ⟨['-'], rfl, by decide⟩
      · rw [parseSign_cons x r2 h1 h2]
        exact ⟨[], rfl, by simp⟩

theorem parseExp_good (u neg : Bool) (ip fp s : List Char)
    (h : parseExp u neg ip fp s ≠ Classification.Invalid) :
    GoodU s ∧ (u = false → '_' ∉ s) := by
  cases s with
  | nil => exact ⟨GoodU_of_not_mem _ (by simp), fun _ => by simp⟩
  | cons c r =>
    simp only [parseExp] at h
    by_cases hce : (c == 'e' || c == 'E') = true
    · rw [if_pos hce] at h
      have hcu : c ≠ '_' := by
        rcases Bool.or_eq_true (c == 'e') (c == 'E') |>.mp hce with h1 | h1 <;>
          · rw [beq_iff_eq] at h1
            subst h1
            decide
      obtain ⟨sg, hsg, hsgu⟩ := parseSign_decomp r
      cases hdr : digitRun u (parseSign r).2 with
      | none => rw [hdr] at h; simp at h
      | some p =>
        obtain ⟨es, rest2⟩ := p
        rw [hdr] at h
        cases rest2 with
        | cons y ys => simp at h
        | nil =>
          obtain ⟨hr2, hges, hnoues, _⟩ := digitRun_decomp u _ es [] hdr
          rw [List.append_nil] at hr2
          have hrs : (c :: r : List Char) = [c] ++ sg ++ es := by
            rw [hsg, hr2]
            simp
          rw [hrs]
          constructor
          · exact GoodU_append _ _
              (GoodU_append _ _
                (GoodU_of_not_mem [c]
                  (by simp only [List.mem_singleton]; exact Ne.symm hcu))
                (GoodU_of_not_mem sg hsgu)) hges
          · intro hu
            have hes : '_' ∉ es := digits_no_underscore es (hnoues hu)
            simp only [List.mem_append, List.mem_singleton]
            rintro ((h1 | h1) | h1)
            · exact hcu h1.symm
            · exact hsgu h1
            · exact hes h1
    · rw [if_neg hce] at h
      simp at h

theorem parseNum_good (u neg : Bool) (s : List Char)
    (h : parseNum u neg s ≠ Classification.Invalid) :
    GoodU s ∧ (u = false → '_' ∉ s) := by
  cases hdr : digitRun u s with
  | some p =>
    obtain ⟨ds, rest⟩ := p
    simp only [parseNum, hdr] at h
    obtain ⟨hs, hgds, hnds, _⟩ := digitRun_decomp u s ds rest hdr
    have hdsNoU : u = false → '_' ∉ ds := fun hu => digits_no_underscore ds (hnds hu)
    subst hs
    cases rest with
    | nil =>
      rw [List.append_nil]
      exact ⟨hgds, hdsNoU⟩
    | cons x r2 =>
      simp only [parseAfterInt] at h
      by_cases hx : x = '.'
      · rw [if_pos hx] at h
        subst hx
        cases hdr2 : digitRun u r2 with
        | some p2 =>
          obtain ⟨fs, r3⟩ := p2
          simp only [parseFrac, hdr2] at h
          obtain ⟨hg3, hn3⟩ := parseExp_good u neg ds fs r3 h
          obtain ⟨hr2, hgfs, hnfs, _⟩ := digitRun_decomp u r2 fs r3 hdr2
          subst hr2
          constructor
          · exact GoodU_append _ _ hgds
              (GoodU_append _ _
                (GoodU_append _ _ (GoodU_of_not_mem ['.'] (by decide)) hgfs) hg3)
          · intro hu
            have h1 := hdsNoU hu
            have h2 := digits_no_underscore fs (hnfs hu)
            have h3 := hn3 hu
            simp only [List.mem_append, List.mem_cons]
            rintro (hm | hm | hm)
            · exact h1 hm
            · exact absurd hm.symm (by decide)
            · rcases hm with hm2 | hm2
              · exact h2 hm2
              · exact h3 hm2
        | none =>
          simp only [parseFrac, hdr2] at h
          obtain ⟨hg2, hn2⟩ := parseExp_good u neg ds [] r2 h
          constructor
          · exact GoodU_append _ _ hgds
              (GoodU_append _ _ (GoodU_of_not_mem ['.'] (by decide)) hg2)
          · intro hu
            have h1 := hdsNoU hu
            have h2 := hn2 hu
            simp only [List.mem_append, List.mem_cons]
            rintro (hm | hm | hm)
            · exact h1 hm
            · exact absurd hm.symm (by decide)
            · exact h2 hm
      · rw [if_neg hx] at h
        obtain ⟨hg2, hn2⟩ := parseExp_good u neg ds [] (x :: r2) h
        constructor
        · exact GoodU_append _ _ hgds hg2
        · intro hu
          have h1 := hdsNoU hu
          have h2 := hn2 hu
          simp only [List.mem_append]
          rintro (hm | hm)
          · exact h1 hm
          · exact h2 hm
  | none =>
    simp only [parseNum, hdr] at h
    cases s with
    | nil => simp [parseDotStart] at h
    | cons x r2 =>
      simp only [parseDotStart] at h
      by_cases hx : x = '.'
      · rw [if_pos hx] at h
        subst hx
        cases hdr2 : digitRun u r2 with
        | some p2 =>
          obtain ⟨fs, r3⟩ := p2
          rw [hdr2] at h
          obtain ⟨hg3, hn3⟩ := parseExp_good u neg [] fs r3 h
          obtain ⟨hr2, hgfs, hnfs, _⟩ := digitRun_decomp u r2 fs r3 hdr2
          subst hr2
          constructor
          · exact GoodU_append ['.'] _ (GoodU_of_not_mem ['.'] (by decide))
              (GoodU_append _ _ hgfs hg3)
          · intro hu
            have h2 := digits_no_underscore fs (hnfs hu)
            have h3 := hn3 hu
            simp only [List.mem_cons]
            rintro (hm | hm)
            · exact absurd hm.symm (by decide)
            · rcases List.mem_append.mp hm with hm2 | hm2
              · exact h2 hm2
              · exact h3 hm2
        | none =>
          rw [hdr2] at h
          simp at h
      · rw [if_neg hx] at h
        simp at h

theorem matchCI_no_underscore : ∀ pat s, matchCI s pat = true →
    (∀ l ∈ pat, l ≠ '_' ∧ l.toNat ≠ 127) → '_' ∉ s := by
  intro pat
  induction pat with
  | nil =>
    intro s hm hp
    cases s with
    | nil => simp
    | cons c cs => simp [matchCI] at hm
  | cons l ls ih =>
    intro s hm hp
    cases s with
    | nil => simp
    | cons c cs =>
      simp only [matchCI, Bool.and_eq_true] at hm
      obtain ⟨h1, h2⟩ := hm
      intro hmem
      rcases List.mem_cons.mp hmem with heq | hmem2
      · obtain ⟨hl1, hl2⟩ := hp l (List.mem_cons_self l ls)
        rw [← heq] at h1
        unfold eqCI at h1
        rcases Bool.or_eq_true _ _ |>.mp h1 with hx | hx
        · rw [beq_iff_eq] at hx
          exact hl1 hx.symm
        · rw [beq_iff_eq] at hx
          have h95 : ('_' : Char).toNat = 95 := rfl
          rw [h95] at hx
          exact hl2 (by omega)
      · exact ih cs h2 (fun x hx => hp x (List.mem_cons_of_mem l hx)) hmem2

theorem scanCore_good (u : Bool) (s : List Char) (h : scanCore u s ≠ Classification.Invalid) :
    GoodU s ∧ (u = false → '_' ∉ s) := by
  obtain ⟨sg, hsg, hsgu⟩ := parseSign_decomp s
  simp only [scanCore] at h
  by_cases hm1 : (matchCI (parseSign s).2 ['i', 'n', 'f'] ||
      matchCI (parseSign s).2 ['i', 'n', 'f', 'i', 'n', 'i', 't', 'y']) = true
  · have hnot : '_' ∉ (parseSign s).2 := by
      rcases Bool.or_eq_true _ _ |>.mp hm1 with hx | hx
      · exact matchCI_no_underscore _ _ hx (by decide)
      · exact matchCI_no_underscore _ _ hx (by decide)
    have hns : '_' ∉ s := by
      rw [hsg]
      intro hmem
      rcases List.mem_append.mp hmem with h1 | h1
      · exact hsgu h1
      · exact hnot h1
    exact ⟨GoodU_of_not_mem s hns, fun _ => hns⟩
  · rw [if_neg hm1] at h
    by_cases hm2 : matchCI (parseSign s).2 ['n', 'a', 'n'] = true
    · have hnot : '_' ∉ (parseSign s).2 := matchCI_no_underscore _ _ hm2 (by decide)
      have hns : '_' ∉ s := by
        rw [hsg]
        intro hmem
        rcases List.mem_append.mp hmem with h1 | h1
        · exact hsgu h1
        · exact hnot h1
      exact ⟨GoodU_of_not_mem s hns, fun _ => hns⟩
    · rw [if_neg hm2] at h
      obtain ⟨hg, hn⟩ := parseNum_good u (parseSign s).1 (parseSign s).2 h
      constructor
      · rw [hsg]
        exact GoodU_append _ _ (GoodU_of_not_mem sg hsgu) hg
      · intro hu
        rw [hsg]
        intro hmem
        rcases List.mem_append.mp hmem with h1 | h1
        · exact hsgu h1
        · exact hn hu h1

theorem dropTrail_decomp (l : List Char) :
    ∃ post, l = dropTrail l ++ post ∧ ∀ c ∈ post, c.isWhitespace = true := by
  refine ⟨(l.reverse.takeWhile Char.isWhitespace).reverse, ?_, ?_⟩
  · have h1 : l.reverse.takeWhile Char.isWhitespace ++ l.reverse.dropWhile Char.isWhitespace =
        l.reverse := List.takeWhile_append_dropWhile _ _
    calc l = l.reverse.reverse := (List.reverse_reverse l).symm
      _ = (l.reverse.takeWhile Char.isWhitespace ++
            l.reverse.dropWhile Char.isWhitespace).reverse := by rw [h1]
      _ = dropTrail l ++ (l.reverse.takeWhile Char.isWhitespace).reverse := by
          rw [List.reverse_append]
          rfl
  · intro c hc
    rw [List.mem_reverse] at hc
    exact List.mem_takeWhile_imp hc

theorem stripWs_decomp (o : Options) (s : List Char) :
    ∃ pre post, s = pre ++ stripWs o s ++ post ∧
      (∀ c ∈ pre, c.isWhitespace = true) ∧ (∀ c ∈ post, c.isWhitespace = true) := by
  simp only [stripWs]
  by_cases hlw : o.allow_leading_ws = true
  · rw [if_pos hlw]
    by_cases htw : o.allow_trailing_ws = true
    · rw [if_pos htw]
      obtain ⟨post, hpost, hpw⟩ := dropTrail_decomp (s.dropWhile Char.isWhitespace)
      refine ⟨s.takeWhile Char.isWhitespace, post, ?_, ?_, hpw⟩
      · calc s = s.takeWhile Char.isWhitespace ++ s.dropWhile Char.isWhitespace :=
            (List.takeWhile_append_dropWhile _ _).symm
          _ = s.takeWhile Char.isWhitespace ++
              (dropTrail (s.dropWhile Char.isWhitespace) ++ post) :=
            congrArg (fun t => s.takeWhile Char.isWhitespace ++ t) hpost
          _ = s.takeWhile Char.isWhitespace ++
              dropTrail (s.dropWhile Char.isWhitespace) ++ post :=
            (List.append_assoc _ _ _).symm
      · intro c hc
        exact List.mem_takeWhile_imp hc
    · rw [if_neg htw]
      refine ⟨s.takeWhile Char.isWhitespace, [], ?_, ?_, by simp⟩
      · rw [List.append_nil]
        exact (List.takeWhile_append_dropWhile _ _).symm
      · intro c hc
        exact List.mem_takeWhile_imp hc
  · rw [if_neg hlw]
    by_cases htw : o.allow_trailing_ws = true
    · rw [if_pos htw]
      obtain ⟨post, hpost, hpw⟩ := dropTrail_decomp s
      exact ⟨[], post, by simpa using hpost, by simp, hpw⟩
    · rw [if_neg htw]
      exact ⟨[], [], by simp, by simp, by simp⟩

/-- Claim C6: any scan that does not come back `Invalid` contains underscores
only when `allow_underscores` is set, and only strictly between two digits;
`"1_000"` is an integer span worth 1000 with underscores on and `Invalid`
with them off; `"_1000"`, `"1000_"`, `"1__000"` are `Invalid` under every
option configuration. -/
theorem underscores_only_between_digits :
    (∀ s o, scan s o ≠ Classification.Invalid →
      (('_' ∈ s → o.allow_underscores = true) ∧ GoodU s)) ∧
    scan "1_000".data { defaultOptions with allow_underscores := true } =
        Classification.IntegerSpan false ['1', '_', '0', '0', '0'] ∧
    intSpanVal false ['1', '_', '0', '0', '0'] = 1000 ∧
    scan "1_000".data { defaultOptions with allow_underscores := false } =
        Classification.Invalid ∧
    (∀ o, scan "_1000".data o = Classification.Invalid ∧
      scan "1000_".data o = Classification.Invalid ∧
      scan "1__000".data o = Classification.Invalid) := by
  refine ⟨?_, by decide, by decide, by decide, ?_⟩
  · intro s o h
    unfold scan at h
    obtain ⟨pre, post, hdc, hpw, hqw⟩ := stripWs_decomp o s
    obtain ⟨hg, hn⟩ := scanCore_good o.allow_underscores (stripWs o s) h
    have hpreU : '_' ∉ pre := by
      intro hm
      exact absurd (hpw '_' hm) (by decide)
    have hpostU : '_' ∉ post := by
      intro hm
      exact absurd (hqw '_' hm) (by decide)
    constructor
    · intro hmem
      by_contra hu
      have hu2 : o.allow_underscores = false := by
        cases hval : o.allow_underscores
        · rfl
        · exact absurd hval hu
      have hns := hn hu2
      rw [hdc] at hmem
      rcases List.mem_append.mp hmem with h1 | h1
      · rcases List.mem_append.mp h1 with h2 | h2
        · exact hpreU h2
        · exact hns h2
      · exact hpostU h1
    · rw [hdc]
      exact GoodU_append _ _ (GoodU_append _ _ (GoodU_of_not_mem pre hpreU) hg)
        (GoodU_of_not_mem post hpostU)
  · intro o
    obtain ⟨lw, tw, us, pol⟩ := o
    cases lw <;> cases tw <;> cases us <;> exact ⟨rfl, rfl, rfl⟩

/-- Witness for C6: the general underscore law applied to `"1_000"` under
underscore-allowing options. -/
theorem underscores_only_between_digits_witness :
    (('_' ∈ "1_000".data →
      ({ defaultOptions with allow_underscores := true } : Options).allow_underscores = true) ∧
      GoodU "1_000".data) :=
  underscores_only_between_digits.1 "1_000".data
    { defaultOptions with allow_underscores := true } (by decide)

/-! ## Correct rounding (claim C8) -/

theorem lg2F_spec : ∀ f n, n ≤ f → 1 ≤ n → 2 ^ lg2F f n ≤ n ∧ n < 2 ^ (lg2F f n + 1) := by
  intro f
  induction f with
  | zero =>
    intro n h1 h2
    omega
  | succ f ih =>
    intro n h1 h2
    rw [lg2F]
    by_cases hle : n ≤ 1
    · rw [if_pos hle]
      simp
      omega
    · rw [if_neg hle]
      have hd1 : 1 ≤ n / 2 := by omega
      have hdf : n / 2 ≤ f := by omega
      obtain ⟨ha, hb⟩ := ih (n / 2) hdf hd1
      rw [pow_succ] at hb
      constructor
      · rw [pow_succ]
        omega
      · rw [pow_succ, pow_succ]
        omega

theorem lg2_spec (n : ℕ) (h : 1 ≤ n) : 2 ^ lg2 n ≤ n ∧ n < 2 ^ (lg2 n + 1) :=
  lg2F_spec n n le_rfl h

theorem pow2_natCast (k : ℕ) : ((2 ^ k : ℕ) : ℚ) = (2 : ℚ) ^ (k : ℤ) := by
  push_cast
  rw [zpow_natCast]

theorem pow2_pos (s : ℤ) : (0 : ℚ) < (2 : ℚ) ^ s := zpow_pos (by norm_num) s

theorem pow2_add (s t : ℤ) : (2 : ℚ) ^ (s + t) = (2 : ℚ) ^ s * (2 : ℚ) ^ t :=
  zpow_add₀ (by norm_num) s t

theorem geTest_iff (n d : ℕ) (s : ℤ) :
    geTest n d s = true ↔ (2 : ℚ) ^ (52 : ℤ) * d ≤ (n : ℚ) * (2 : ℚ) ^ s := by
  have h52 : ((2 ^ 52 : ℕ) : ℚ) = (2 : ℚ) ^ (52 : ℤ) := pow2_natCast 52
  unfold geTest
  by_cases hs : 0 ≤ s
  · rw [if_pos hs, decide_eq_true_eq]
    have hcast : ((2 ^ s.toNat : ℕ) : ℚ) = (2 : ℚ) ^ s := by
      rw [pow2_natCast, Int.toNat_of_nonneg hs]
    constructor
    · intro h
      have h2 : ((2 ^ 52 * d : ℕ) : ℚ) ≤ ((n * 2 ^ s.toNat : ℕ) : ℚ) := by exact_mod_cast h
      push_cast [hcast, h52] at h2
      linarith
    · intro h
      have h2 : ((2 ^ 52 * d : ℕ) : ℚ) ≤ ((n * 2 ^ s.toNat : ℕ) : ℚ) := by
        push_cast [hcast, h52]
        linarith
      exact_mod_cast h2
  · rw [if_neg hs, decide_eq_true_eq]
    push_neg at hs
    have hcast : ((2 ^ (-s).toNat : ℕ) : ℚ) = (2 : ℚ) ^ (-s) := by
      rw [pow2_natCast, Int.toNat_of_nonneg (by omega : (0 : ℤ) ≤ -s)]
    have hkey : ∀ x : ℚ, x * (2 : ℚ) ^ s * (2 : ℚ) ^ (-s) = x := by
      intro x
      rw [mul_assoc, ← pow2_add]
      simp
    have hpos := pow2_pos (-s)
    constructor
    · intro h
      have h2 : ((2 ^ 52 * d * 2 ^ (-s).toNat : ℕ) : ℚ) ≤ ((n : ℕ) : ℚ) := by exact_mod_cast h
      push_cast [hcast, h52] at h2
      rw [← mul_le_mul_right hpos, hkey]
      linarith
    · intro h
      have h2 : (2 : ℚ) ^ (52 : ℤ) * d * (2 : ℚ) ^ (-s) ≤ (n : ℚ) := by
        calc (2 : ℚ) ^ (52 : ℤ) * d * (2 : ℚ) ^ (-s)
            ≤ (n : ℚ) * (2 : ℚ) ^ s * (2 : ℚ) ^ (-s) :=
              mul_le_mul_of_nonneg_right h hpos.le
          _ = n := hkey n
      have h3 : ((2 ^ 52 * d * 2 ^ (-s).toNat : ℕ) : ℚ) ≤ ((n : ℕ) : ℚ) := by
        push_cast [hcast, h52]
        linarith
      exact_mod_cast h3

theorem scaleExp_spec (n d : ℕ) (hn : 0 < n) (hd : 0 < d) :
    (2 : ℚ) ^ (52 : ℤ) * d ≤ (n : ℚ) * (2 : ℚ) ^ scaleExp n d ∧
      (n : ℚ) * (2 : ℚ) ^ scaleExp n d < (2 : ℚ) ^ (53 : ℤ) * d := by
  obtain ⟨hn1, hn2⟩ := lg2_spec n hn
  obtain ⟨hd1, hd2⟩ := lg2_spec d hd
  set ln := lg2 n with hln
  set ld := lg2 d with hld
  have hqn1 : (2 : ℚ) ^ (ln : ℤ) ≤ (n : ℚ) := by
    rw [← pow2_natCast]
    exact_mod_cast hn1
  have hqn2 : (n : ℚ) < (2 : ℚ) ^ ((ln : ℤ) + 1) := by
    have hx : (2 : ℚ) ^ ((ln : ℤ) + 1) = ((2 ^ (ln + 1) : ℕ) : ℚ) := by
      rw [pow2_natCast]
      push_cast
      ring_nf
    rw [hx]
    exact_mod_cast hn2
  have hqd1 : (2 : ℚ) ^ (ld : ℤ) ≤ (d : ℚ) := by
    rw [← pow2_natCast]
    exact_mod_cast hd1
  have hqd2 : (d : ℚ) < (2 : ℚ) ^ ((ld : ℤ) + 1) := by
    have hx : (2 : ℚ) ^ ((ld : ℤ) + 1) = ((2 ^ (ld + 1) : ℕ) : ℚ) := by
      rw [pow2_natCast]
      push_cast
      ring_nf
    rw [hx]
    exact_mod_cast hd2
  set s0 : ℤ := 52 + (ld : ℤ) - (ln : ℤ) with hs0
  have hb1 : (2 : ℚ) ^ (51 : ℤ) * d < (n : ℚ) * (2 : ℚ) ^ s0 := by
    have step1 : (2 : ℚ) ^ (ln : ℤ) * (2 : ℚ) ^ s0 ≤ (n : ℚ) * (2 : ℚ) ^ s0 :=
      mul_le_mul_of_nonneg_right hqn1 (pow2_pos s0).le
    have step2 : (2 : ℚ) ^ (ln : ℤ) * (2 : ℚ) ^ s0 =
        (2 : ℚ) ^ (51 : ℤ) * (2 : ℚ) ^ ((ld : ℤ) + 1) := by
      rw [← pow2_add, ← pow2_add]
      congr 1
      omega
    have step3 : (2 : ℚ) ^ (51 : ℤ) * (d : ℚ) < (2 : ℚ) ^ (51 : ℤ) * (2 : ℚ) ^ ((ld : ℤ) + 1) :=
      mul_lt_mul_of_pos_left hqd2 (pow2_pos 51)
    calc (2 : ℚ) ^ (51 : ℤ) * (d : ℚ)
        < (2 : ℚ) ^ (51 : ℤ) * (2 : ℚ) ^ ((ld : ℤ) + 1) := step3
      _ = (2 : ℚ) ^ (ln : ℤ) * (2 : ℚ) ^ s0 := step2.symm
      _ ≤ (n : ℚ) * (2 : ℚ) ^ s0 := step1
  have hb3 : (n : ℚ) * (2 : ℚ) ^ s0 < (2 : ℚ) ^ (53 : ℤ) * d := by
    have step1 : (n : ℚ) * (2 : ℚ) ^ s0 < (2 : ℚ) ^ ((ln : ℤ) + 1) * (2 : ℚ) ^ s0 :=
      mul_lt_mul_of_pos_right hqn2 (pow2_pos s0)
    have step2 : (2 : ℚ) ^ ((ln : ℤ) + 1) * (2 : ℚ) ^ s0 =
        (2 : ℚ) ^ (53 : ℤ) * (2 : ℚ) ^ (ld : ℤ) := by
      rw [← pow2_add, ← pow2_add]
      congr 1
      omega
    have step3 : (2 : ℚ) ^ (53 : ℤ) * (2 : ℚ) ^ (ld : ℤ) ≤ (2 : ℚ) ^ (53 : ℤ) * d :=
      mul_le_mul_of_nonneg_left hqd1 (pow2_pos 53).le
    calc (n : ℚ) * (2 : ℚ) ^ s0 < (2 : ℚ) ^ ((ln : ℤ) + 1) * (2 : ℚ) ^ s0 := step1
      _ = (2 : ℚ) ^ (53 : ℤ) * (2 : ℚ) ^ (ld : ℤ) := step2
      _ ≤ (2 : ℚ) ^ (53 : ℤ) * d := step3
  unfold scaleExp
  rw [← hln, ← hld, ← hs0]
  by_cases hg : geTest n d s0 = true
  · rw [if_pos hg]
    exact ⟨(geTest_iff n d s0).mp hg, hb3⟩
  · rw [if_neg hg]
    have hlt : ¬((2 : ℚ) ^ (52 : ℤ) * d ≤ (n : ℚ) * (2 : ℚ) ^ s0) := fun hc =>
      hg ((geTest_iff n d s0).mpr hc)
    push_neg at hlt
    have hsplit : (2 : ℚ) ^ (s0 + 1) = (2 : ℚ) ^ s0 * 2 := by
      rw [pow2_add]
      norm_num
    have h5152 : (2 : ℚ) ^ (52 : ℤ) = (2 : ℚ) ^ (51 : ℤ) * 2 := by
      rw [show (52 : ℤ) = 51 + 1 from rfl, pow2_add]
      norm_num
    have h5253 : (2 : ℚ) ^ (53 : ℤ) = (2 : ℚ) ^ (52 : ℤ) * 2 := by
      rw [show (53 : ℤ) = 52 + 1 from rfl, pow2_add]
      norm_num
    constructor
    · rw [hsplit, h5152]
      nlinarith [hb1]
    · rw [hsplit, h5253]
      nlinarith [hlt]

theorem rhe_le_half (a b : ℕ) (hb : 0 < b) :
    |(a : ℚ) - (rhe a b : ℚ) * b| ≤ (b : ℚ) / 2 := by
  have hmod := Nat.div_add_mod a b
  have hrb : a % b < b := Nat.mod_lt a hb
  have hbq : (0 : ℚ) < b := by exact_mod_cast hb
  have ha : (a : ℚ) = b * (a / b : ℕ) + (a % b : ℕ) := by exact_mod_cast hmod.symm
  have hrq : ((a % b : ℕ) : ℚ) < b := by exact_mod_cast hrb
  simp only [rhe]
  by_cases h1 : 2 * (a % b) < b
  · rw [if_pos h1]
    have heq : (a : ℚ) - ((a / b : ℕ) : ℚ) * b = ((a % b : ℕ) : ℚ) := by
      rw [ha]
      ring
    rw [heq, abs_of_nonneg (by positivity)]
    have h1q : 2 * ((a % b : ℕ) : ℚ) < b := by exact_mod_cast h1
    linarith
  · rw [if_neg h1]
    by_cases h2 : b < 2 * (a % b)
    · rw [if_pos h2]
      have heq : (a : ℚ) - ((a / b + 1 : ℕ) : ℚ) * b = ((a % b : ℕ) : ℚ) - b := by
        push_cast
        push_cast at ha
        rw [ha]
        ring
      rw [heq, abs_of_nonpos (by linarith)]
      have h2q : (b : ℚ) < 2 * ((a % b : ℕ) : ℚ) := by exact_mod_cast h2
      linarith
    · have heq2 : 2 * (a % b) = b := by omega
      have heq2q : 2 * ((a % b : ℕ) : ℚ) = b := by exact_mod_cast heq2
      rw [if_neg h2]
      by_cases h3 : a / b % 2 = 0
      · rw [if_pos h3]
        have heq : (a : ℚ) - ((a / b : ℕ) : ℚ) * b = ((a % b : ℕ) : ℚ) := by
          rw [ha]
          ring
        rw [heq, abs_of_nonneg (by positivity)]
        linarith
      · rw [if_neg h3]
        have heq : (a : ℚ) - ((a / b + 1 : ℕ) : ℚ) * b = ((a % b : ℕ) : ℚ) - b := by
          push_cast
          push_cast at ha
          rw [ha]
          ring
        rw [heq, abs_of_nonpos (by linarith)]
        linarith

theorem ratScale_spec (n d : ℕ) (s : ℤ) (hd : 0 < d) :
    0 < (ratScale n d s).2 ∧
      ((ratScale n d s).1 : ℚ) * d = (n : ℚ) * (2 : ℚ) ^ s * ((ratScale n d s).2 : ℚ) := by
  unfold ratScale
  by_cases hs : 0 ≤ s
  · rw [if_pos hs]
    refine ⟨hd, ?_⟩
    have hcast : ((2 ^ s.toNat : ℕ) : ℚ) = (2 : ℚ) ^ s := by
      rw [pow2_natCast, Int.toNat_of_nonneg hs]
    push_cast [hcast]
    ring
  · rw [if_neg hs]
    push_neg at hs
    constructor
    · positivity
    · have hcast : ((2 ^ (-s).toNat : ℕ) : ℚ) = (2 : ℚ) ^ (-s) := by
        rw [pow2_natCast, Int.toNat_of_nonneg (by omega : (0 : ℤ) ≤ -s)]
      push_cast [hcast]
      have hps : (2 : ℚ) ^ s * (2 : ℚ) ^ (-s) = 1 := by
        rw [← pow2_add]
        simp
      calc (n : ℚ) * d = (n : ℚ) * d * ((2 : ℚ) ^ s * (2 : ℚ) ^ (-s)) := by rw [hps, mul_one]
        _ = (n : ℚ) * 2 ^ s * (d * 2 ^ (-s)) := by ring

theorem int_nearest (x : ℚ) (m k : ℤ) (h : |x - (m : ℚ)| ≤ 1 / 2) :
    |x - (m : ℚ)| ≤ |x - (k : ℚ)| := by
  by_cases hk : k = m
  · subst hk
    exact le_rfl
  · have h1 : (1 : ℚ) ≤ |(m : ℚ) - (k : ℚ)| := by
      have hz : (1 : ℤ) ≤ |m - k| := by
        have hne : m - k ≠ 0 := sub_ne_zero.mpr fun h => hk h.symm
        rcases lt_or_gt_of_ne hne with hlt | hgt
        · rw [abs_of_neg hlt]
          omega
        · rw [abs_of_pos hgt]
          omega
      have hc : ((|m - k| : ℤ) : ℚ) = |(m : ℚ) - (k : ℚ)| := by
        push_cast
        rfl
      calc (1 : ℚ) ≤ ((|m - k| : ℤ) : ℚ) := by exact_mod_cast hz
        _ = |(m : ℚ) - (k : ℚ)| := hc
    have h2 : |(m : ℚ) - (k : ℚ)| ≤ |x - (k : ℚ)| + |x - (m : ℚ)| := by
      have heq : |(m : ℚ) - (k : ℚ)| = |(x - (k : ℚ)) - (x - (m : ℚ))| := by
        congr 1
        ring
      rw [heq]
      exact abs_sub _ _
    linarith

theorem roundPos_spec (q : ℚ) (hq : 0 < q) :
    ∃ (m : ℕ) (s : ℤ),
      roundPos q = (m : ℚ) * (2 : ℚ) ^ (-s) ∧
      m ≤ 2 ^ 53 ∧
      (2 : ℚ) ^ (52 : ℤ) * (2 : ℚ) ^ (-s) ≤ q ∧
      |q - roundPos q| ≤ (2 : ℚ) ^ (-s) / 2 ∧
      ∀ k : ℤ, |q - roundPos q| ≤ |q - (k : ℚ) * (2 : ℚ) ^ (-s)| := by
  set n := q.num.toNat with hn
  set d := q.den with hd
  set s := scaleExp n d with hs
  set a := (ratScale n d s).1 with haa
  set b := (ratScale n d s).2 with hbb
  set m := rhe a b with hm
  have hroundPos : roundPos q = (m : ℚ) * (2 : ℚ) ^ (-s) := rfl
  have hdpos : 0 < d := q.pos
  have hnumpos : 0 < q.num := Rat.num_pos.mpr hq
  have hnpos : 0 < n := by
    rw [hn]
    omega
  have hdq : (0 : ℚ) < d := by exact_mod_cast hdpos
  have hnq : (n : ℚ) = q * d := by
    have h0 : ((n : ℕ) : ℤ) = q.num := by
      rw [hn]
      omega
    have h3 := Rat.num_div_den q
    have h4 : ((q.num : ℤ) : ℚ) = q * (q.den : ℚ) := by
      rw [div_eq_iff (by positivity : ((q.den : ℚ)) ≠ 0)] at h3
      exact h3
    calc (n : ℚ) = ((q.num : ℤ) : ℚ) := by exact_mod_cast congrArg (fun z => ((z : ℤ) : ℚ)) h0
      _ = q * d := h4
  obtain ⟨h52, h53⟩ := scaleExp_spec n d hnpos hdpos
  have hx1 : (2 : ℚ) ^ (52 : ℤ) ≤ q * (2 : ℚ) ^ s := by
    rw [hnq] at h52
    have h' : (2 : ℚ) ^ (52 : ℤ) * d ≤ (q * (2 : ℚ) ^ s) * d := by
      calc (2 : ℚ) ^ (52 : ℤ) * d ≤ (q * d) * (2 : ℚ) ^ s := h52
        _ = (q * (2 : ℚ) ^ s) * d := by ring
    exact le_of_mul_le_mul_right h' hdq
  have hx2 : q * (2 : ℚ) ^ s < (2 : ℚ) ^ (53 : ℤ) := by
    rw [hnq] at h53
    have h' : (q * (2 : ℚ) ^ s) * d < (2 : ℚ) ^ (53 : ℤ) * d := by
      calc (q * (2 : ℚ) ^ s) * d = (q * d) * (2 : ℚ) ^ s := by ring
        _ < (2 : ℚ) ^ (53 : ℤ) * d := h53
    exact lt_of_mul_lt_mul_right h' hdq.le
  obtain ⟨hbpos, hab⟩ := ratScale_spec n d s hdpos
  have hbq : (0 : ℚ) < b := by exact_mod_cast hbpos
  have haq : (a : ℚ) = q * (2 : ℚ) ^ s * b := by
    have h' : (a : ℚ) * d = (q * (2 : ℚ) ^ s * b) * d := by
      rw [hab, hnq]
      ring
    exact mul_right_cancel₀ (ne_of_gt hdq) h'
  have hclose0 := rhe_le_half a b hbpos
  have hxm : |q * (2 : ℚ) ^ s - (m : ℚ)| ≤ 1 / 2 := by
    have heq : (a : ℚ) - (m : ℚ) * b = (q * (2 : ℚ) ^ s - m) * b := by
      rw [haq]
      ring
    rw [heq, abs_mul, abs_of_pos hbq] at hclose0
    nlinarith [hclose0, hbq, abs_nonneg (q * (2 : ℚ) ^ s - (m : ℚ))]
  have hm53 : m ≤ 2 ^ 53 := by
    have h1 : (m : ℚ) - q * (2 : ℚ) ^ s ≤ 1 / 2 := by
      have := abs_le.mp hxm
      linarith [this.1]
    have hcast : ((2 ^ 53 : ℕ) : ℚ) = (2 : ℚ) ^ (53 : ℤ) := pow2_natCast 53
    have h2 : (m : ℚ) < ((2 ^ 53 : ℕ) : ℚ) + 1 := by
      rw [hcast]
      linarith [hx2]
    have h3 : m < 2 ^ 53 + 1 := by exact_mod_cast h2
    omega
  have hspos := pow2_pos (-s)
  have hss1 : (2 : ℚ) ^ s * (2 : ℚ) ^ (-s) = 1 := by
    rw [← pow2_add]
    simp
  have habs : ∀ y : ℚ, |q - y * (2 : ℚ) ^ (-s)| = |q * (2 : ℚ) ^ s - y| * (2 : ℚ) ^ (-s) := by
    intro y
    have hid : q - y * (2 : ℚ) ^ (-s) = (q * (2 : ℚ) ^ s - y) * (2 : ℚ) ^ (-s) := by
      calc q - y * (2 : ℚ) ^ (-s)
          = q * ((2 : ℚ) ^ s * (2 : ℚ) ^ (-s)) - y * (2 : ℚ) ^ (-s) := by rw [hss1, mul_one]
        _ = (q * (2 : ℚ) ^ s - y) * (2 : ℚ) ^ (-s) := by ring
    rw [hid, abs_mul, abs_of_pos hspos]
  refine ⟨m, s, hroundPos, hm53, ?_, ?_, ?_⟩
  · have h' := mul_le_mul_of_nonneg_right hx1 hspos.le
    calc (2 : ℚ) ^ (52 : ℤ) * (2 : ℚ) ^ (-s) ≤ (q * (2 : ℚ) ^ s) * (2 : ℚ) ^ (-s) := h'
      _ = q := by rw [mul_assoc, hss1, mul_one]
  · rw [hroundPos, habs]
    calc |q * (2 : ℚ) ^ s - (m : ℚ)| * (2 : ℚ) ^ (-s) ≤ (1 / 2) * (2 : ℚ) ^ (-s) :=
          mul_le_mul_of_nonneg_right hxm hspos.le
      _ = (2 : ℚ) ^ (-s) / 2 := by ring
  · intro k
    rw [hroundPos, habs, habs]
    apply mul_le_mul_of_nonneg_right _ hspos.le
    have hint := int_nearest (q * (2 : ℚ) ^ s) (m : ℤ) k (by push_cast; exact hxm)
    push_cast at hint
    exact hint

theorem pow2_natCast_lit (k : ℕ) (kz : ℤ) (h : (k : ℤ) = kz) :
    ((2 ^ k : ℕ) : ℚ) = (2 : ℚ) ^ kz := by
  rw [pow2_natCast, h]

theorem pos_nearest (q : ℚ) (hq : 0 < q) (r : ℚ) (hr : repDouble r) :
    |q - roundPos q| ≤ |q - r| := by
  obtain ⟨m, s, hv, hm53, hlow, hclose, hnear⟩ := roundPos_spec q hq
  obtain ⟨j, f, hj, hrjf⟩ := hr
  by_cases hfs : 0 ≤ f + s
  · have hcast : (2 : ℚ) ^ ((f + s).toNat : ℕ) = (2 : ℚ) ^ (f + s) := by
      rw [← zpow_natCast, Int.toNat_of_nonneg hfs]
    have hk : r = ((j * 2 ^ (f + s).toNat : ℤ) : ℚ) * (2 : ℚ) ^ (-s) := by
      rw [hrjf]
      push_cast
      rw [hcast, mul_assoc, ← pow2_add, show f + s + -s = f from by omega]
    rw [hk]
    exact hnear _
  · push_neg at hfs
    set u := (-(f + s)).toNat with hu
    have huz : ((u : ℕ) : ℤ) = -(f + s) := Int.toNat_of_nonneg (by omega)
    have hu1 : 1 ≤ u := by omega
    have hf : f = -s - (u : ℤ) := by omega
    by_cases hdvd : ((2 : ℤ) ^ u ∣ j)
    · obtain ⟨j2, hj2⟩ := hdvd
      have hcastu : ((2 ^ u : ℕ) : ℚ) = (2 : ℚ) ^ ((u : ℕ) : ℤ) := pow2_natCast u
      have hk : r = ((j2 : ℤ) : ℚ) * (2 : ℚ) ^ (-s) := by
        rw [hrjf, hj2]
        push_cast
        have hz : ((2 : ℚ) ^ u : ℚ) = (2 : ℚ) ^ ((u : ℕ) : ℤ) := by
          rw [zpow_natCast]
        rw [hz]
        calc (2 : ℚ) ^ ((u : ℕ) : ℤ) * (j2 : ℚ) * (2 : ℚ) ^ f
            = (j2 : ℚ) * ((2 : ℚ) ^ ((u : ℕ) : ℤ) * (2 : ℚ) ^ f) := by ring
          _ = (j2 : ℚ) * (2 : ℚ) ^ (((u : ℕ) : ℤ) + f) := by rw [pow2_add]
          _ = (j2 : ℚ) * (2 : ℚ) ^ (-s) := by
              rw [show ((u : ℕ) : ℤ) + f = -s from by omega]
      rw [hk]
      exact hnear _
    · set A : ℚ := (2 : ℚ) ^ (52 : ℤ) with hA
      set t : ℚ := (2 : ℚ) ^ (-s) with ht
      have htpos : 0 < t := pow2_pos (-s)
      have hA1 : (1 : ℚ) ≤ A := one_le_zpow₀ (by norm_num) (by norm_num)
      have h2A : (2 : ℚ) ^ (53 : ℤ) = 2 * A := by
        rw [hA, show (53 : ℤ) = 1 + 52 from rfl, pow2_add]
        norm_num
      clear_value A t
      have habsj : |(j : ℚ)| = (j.natAbs : ℚ) := by
        rw [Int.cast_natAbs]
        simp
      have habsr : |r| = (j.natAbs : ℚ) * (2 : ℚ) ^ f := by
        rw [hrjf, abs_mul, habsj, abs_of_pos (pow2_pos f)]
      have hrabs : |r| ≤ A * t - t / 2 := by
        by_cases hu2 : 2 ≤ u
        · have hjb : (j.natAbs : ℚ) ≤ 2 * A := by
            have hc : ((2 ^ 53 : ℕ) : ℚ) = 2 * A := by
              rw [hA]
              norm_num
            calc (j.natAbs : ℚ) ≤ ((2 ^ 53 : ℕ) : ℚ) := by exact_mod_cast hj
              _ = 2 * A := hc
          have hfb : (2 : ℚ) ^ f ≤ t / 4 := by
            have h1 : (2 : ℚ) ^ f ≤ (2 : ℚ) ^ (-s - 2) := by
              apply zpow_le_zpow_right₀ (by norm_num)
              omega
            have h22 : (2 : ℚ) ^ (-2 : ℤ) = 1 / 4 := by
              rw [show (-2 : ℤ) = -(2 : ℤ) from rfl, zpow_neg]
              norm_num
            have h2 : (2 : ℚ) ^ (-s - 2) = t / 4 := by
              rw [show -s - 2 = -s + (-2) from by ring, pow2_add, ← ht, h22]
              ring
            linarith
          calc |r| = (j.natAbs : ℚ) * (2 : ℚ) ^ f := habsr
            _ ≤ (2 * A) * (t / 4) := by
                apply mul_le_mul hjb hfb (pow2_pos f).le (by linarith [hA1])
            _ = A * (t / 2) := by ring
            _ ≤ A * t - t / 2 := by nlinarith [hA1, htpos]
        · have hu1' : u = 1 := by omega
          have hodd : ¬((2 : ℤ) ∣ j) := by
            rw [hu1'] at hdvd
            simpa using hdvd
          have hj53 : j.natAbs + 1 ≤ 2 ^ 53 := by
            rcases Nat.lt_or_ge j.natAbs (2 ^ 53) with h | h
            · omega
            · exfalso
              have heq : j.natAbs = 2 ^ 53 := le_antisymm hj h
              rcases Int.natAbs_eq j with hh | hh
              · rw [heq] at hh
                exact hodd ⟨2 ^ 52, by rw [hh]; ring⟩
              · rw [heq] at hh
                exact hodd ⟨-(2 ^ 52), by rw [hh]; norm_num⟩
          have hjb : (j.natAbs : ℚ) ≤ 2 * A - 1 := by
            have hc : ((2 ^ 53 : ℕ) : ℚ) = 2 * A := by
              rw [hA]
              norm_num
            have : (j.natAbs : ℚ) + 1 ≤ ((2 ^ 53 : ℕ) : ℚ) := by exact_mod_cast hj53
            rw [hc] at this
            linarith
          have hfb : (2 : ℚ) ^ f = t / 2 := by
            have h21 : (2 : ℚ) ^ (-1 : ℤ) = 1 / 2 := by
              rw [show (-1 : ℤ) = -(1 : ℤ) from rfl, zpow_neg]
              norm_num
            rw [hf, hu1']
            rw [show -s - ((1 : ℕ) : ℤ) = -s + (-1) from by push_cast; ring, pow2_add, ← ht, h21]
            ring
          calc |r| = (j.natAbs : ℚ) * (2 : ℚ) ^ f := habsr
            _ = (j.natAbs : ℚ) * (t / 2) := by rw [hfb]
            _ ≤ (2 * A - 1) * (t / 2) := by
                apply mul_le_mul_of_nonneg_right hjb (by linarith [htpos])
            _ = A * t - t / 2 := by ring
      have hqr : (t : ℚ) / 2 ≤ |q - r| := by
        have h1 : q - r ≥ q - |r| := by linarith [le_abs_self r]
        have h2 : q - |r| ≥ A * t - (A * t - t / 2) := by
          have e1 : q - |r| ≥ q - (A * t - t / 2) := by linarith [hrabs]
          have e2 : q - (A * t - t / 2) ≥ A * t - (A * t - t / 2) := by linarith [hlow]
          linarith
        have h3 : A * t - (A * t - t / 2) = t / 2 := by ring
        calc t / 2 ≤ q - r := by linarith [h2, h3, h1]
          _ ≤ |q - r| := le_abs_self (q - r)
      calc |q - roundPos q| ≤ t / 2 := hclose
        _ ≤ |q - r| := hqr

theorem repDouble_neg (r : ℚ) (h : repDouble r) : repDouble (-r) := by
  obtain ⟨j, f, hj, hr⟩ := h
  refine ⟨-j, f, by simpa using hj, ?_⟩
  rw [hr]
  push_cast
  ring

theorem roundDouble_rep (q : ℚ) : repDouble (roundDouble q) := by
  unfold roundDouble
  by_cases h0 : q = 0
  · rw [if_pos h0]
    exact ⟨0, 0, by norm_num, by norm_num⟩
  · rw [if_neg h0]
    by_cases hpos : 0 < q
    · rw [if_pos hpos]
      obtain ⟨m, s, hv, hm53, _, _, _⟩ := roundPos_spec q hpos
      refine ⟨(m : ℤ), -s, by simpa using hm53, ?_⟩
      rw [hv]
      push_cast
      ring
    · rw [if_neg hpos]
      have hneg : 0 < -q := by
        rcases lt_trichotomy q 0 with h | h | h
        · linarith
        · exact absurd h h0
        · exact absurd h hpos
      obtain ⟨m, s, hv, hm53, _, _, _⟩ := roundPos_spec (-q) hneg
      refine ⟨-(m : ℤ), -s, by simpa using hm53, ?_⟩
      rw [hv]
      push_cast
      ring

theorem roundDouble_nearest (q r : ℚ) (hr : repDouble r) :
    |q - roundDouble q| ≤ |q - r| := by
  unfold roundDouble
  by_cases h0 : q = 0
  · rw [if_pos h0]
    subst h0
    simp
  · rw [if_neg h0]
    by_cases hpos : 0 < q
    · rw [if_pos hpos]
      exact pos_nearest q hpos r hr
    · rw [if_neg hpos]
      have hneg : 0 < -q := by
        rcases lt_trichotomy q 0 with h | h | h
        · linarith
        · exact absurd h h0
        · exact absurd h hpos
      have h2 := pos_nearest (-q) hneg (-r) (repDouble_neg r hr)
      calc |q - -roundPos (-q)|
          = |(-q) - roundPos (-q)| := by
            rw [show q - -roundPos (-q) = -((-q) - roundPos (-q)) from by ring, abs_neg]
        _ ≤ |(-q) - (-r)| := h2
        _ = |q - r| := by
            rw [show (-q) - (-r) = -(q - r) from by ring, abs_neg]

/-- Claim C8: extraction of a float span produces exactly the
correctly-rounded double of the literal's decimal value — `roundDouble`
returns a representable double that is at least as close to the exact value
as every representable double — and `"3.14e2"` extracts to exactly `314`. -/
theorem float_extraction_correctly_rounded :
    (∀ s o neg ip fp eneg ep, scan s o = Classification.FloatSpan neg ip fp eneg ep →
      extract (Classification.FloatSpan neg ip fp eneg ep) =
        some (NumericResult.FloatRes (FloatVal.finite
          (roundDouble (floatSpanVal neg ip fp eneg ep))))) ∧
    (∀ q : ℚ, repDouble (roundDouble q) ∧
      ∀ r, repDouble r → |q - roundDouble q| ≤ |q - r|) ∧
    extract (scan "3.14e2".data defaultOptions) =
      some (NumericResult.FloatRes (FloatVal.finite 314)) := by
  refine ⟨fun s o neg ip fp eneg ep h => rfl,
    fun q => ⟨roundDouble_rep q, fun r hr => roundDouble_nearest q r hr⟩, ?_⟩
  have hscan : scan "3.14e2".data defaultOptions =
      Classification.FloatSpan false ['3'] ['1', '4'] false ['2'] := by decide
  rw [hscan]
  have h1 : digitsVal ['3'] = 3 := by decide
  have h2 : digitsVal ['1', '4'] = 14 := by decide
  have h3 : digitsVal ['2'] = 2 := by decide
  have h4 : fracLen ['1', '4'] = 2 := by decide
  have hval : floatSpanVal false ['3'] ['1', '4'] false ['2'] = 314 := by
    unfold floatSpanVal expVal
    rw [h1, h2, h3, h4]
    norm_num
  have hround : roundDouble (314 : ℚ) = 314 := by
    have hrep : repDouble (314 : ℚ) := ⟨314, 0, by norm_num, by norm_num⟩
    have hle := roundDouble_nearest 314 314 hrep
    have hz : |(314 : ℚ) - roundDouble 314| = 0 :=
      le_antisymm (by simpa using hle) (abs_nonneg _)
    have hz2 : (314 : ℚ) - roundDouble 314 = 0 := abs_eq_zero.mp hz
    linarith
  simp only [extract]
  rw [hval, hround]

/-- Witness for C8: the float-span extraction equation discharged on
`"3.14e2"`, and nearest-rounding compared against the representable double
`3` at the value `3.14`. -/
theorem float_extraction_correctly_rounded_witness :
    extract (Classification.FloatSpan false ['3'] ['1', '4'] false ['2']) =
      some (NumericResult.FloatRes (FloatVal.finite
        (roundDouble (floatSpanVal false ['3'] ['1', '4'] false ['2'])))) ∧
    |(157 / 50 : ℚ) - roundDouble (157 / 50)| ≤ |(157 / 50 : ℚ) - 3| :=
  ⟨float_extraction_correctly_rounded.1 "3.14e2".data defaultOptions false ['3'] ['1', '4']
      false ['2'] (by decide),
   (float_extraction_correctly_rounded.2.1 (157 / 50)).2 3 ⟨3, 0, by norm_num, by norm_num⟩⟩
